import Mathlib

/-!
Shallow embedding of the `dst` crate of the fuze repository (Dempster-Shafer
evidence combination under a fixed memory budget), together with proofs about
the embedded operations.

Modelling conventions:
* `f32` masses are modelled as rationals (`ℚ`); floating-point rounding is out
  of scope, but every exact computation (sums, products, divisions) follows the
  source expression for expression.  Division by zero in `ℚ` yields `0` where
  `f32` would yield `inf`/`NaN`; theorems that depend on a division carry a
  hypothesis making the divisor nonzero so the model is only used where it is
  faithful.
* `usize` bitset hypotheses are modelled as `ℕ` with bitwise operations; the
  complement (`!x` in the source) is modelled as XOR with `2^64 - 1`, and
  statements that need it carry a `< 2^64` bound on the stored sets.
* Fixed-size arrays `[T; N]` are modelled as lists of length `N` (or as
  functions `Fin n → ℕ` for the `[u8; N]` set instance).
* A reachable panic (`expect`, `unwrap`, `todo!`, `unreachable!`) is modelled
  by an `Option`-valued result (`none` = panic).  Panic sites that are locally
  guarded by the enclosing branch (e.g. an `unwrap` of a slot that the branch
  condition guarantees to be occupied) are modelled by a default value and are
  marked by a comment; the invariant lemmas below show the corresponding
  branch is not taken under the conditions of every theorem that uses it.
-/

namespace Fuze

/-! ### Set abstraction: src/dst/src/set.rs -/

/-- Bit width of `usize` (64-bit target): mask used to model Rust `!x`. -/
def usizeMask : ℕ := 2 ^ 64 - 1

/-- Set for usize, fn is_subset: `self & rhs == *self`. -/
def uIsSubset (a b : ℕ) : Bool := a &&& b == a

/-- Set for usize, fn cap: `lhs & rhs`. -/
def uCap (a b : ℕ) : ℕ := a &&& b

/-- Set for usize, fn cup: `lhs | rhs`. -/
def uCup (a b : ℕ) : ℕ := a ||| b

/-- Set for usize, fn not: `!self`, i.e. bitwise complement within 64 bits. -/
def uNot (a : ℕ) : ℕ := a ^^^ usizeMask

/-- Set for usize, EMPTY: `0usize`. -/
def uEmpty : ℕ := 0

/-- Set for `[u8; N]`, modelled as `Fin n → ℕ` with each entry a byte.
fn is_subset: `self.iter().zip(rhs).all(|(l, r)| l & r == *l)`. -/
def bIsSubset (n : ℕ) (x y : Fin n → ℕ) : Prop := ∀ i, x i &&& y i = x i

/-- Set for `[u8; N]`, fn cap: bytewise `l & r`. -/
def bCap (n : ℕ) (x y : Fin n → ℕ) : Fin n → ℕ := fun i => x i &&& y i

/-- Set for `[u8; N]`, fn cup: bytewise `l | r`. -/
def bCup (n : ℕ) (x y : Fin n → ℕ) : Fin n → ℕ := fun i => x i ||| y i

/-- Set for `[u8; N]`, fn not: bytewise `!x` (complement within a byte). -/
def bNot (n : ℕ) (x : Fin n → ℕ) : Fin n → ℕ := fun i => x i ^^^ 255

/-- Set for `[u8; N]`, EMPTY: `[0u8; N]`. -/
def bEmpty (n : ℕ) : Fin n → ℕ := fun _ => 0

/-! ### Query layer: src/dst/src/dst.rs -/

/-- fn bel: sum of masses of focal elements that are subsets of `q`
(`filter_map` + `sum` over the assignment). -/
def bel (bba : List (ℕ × ℚ)) (q : ℕ) : ℚ :=
  ((bba.filter fun pm => uIsSubset pm.1 q).map Prod.snd).sum

/-- fn pl: `1 - bel(bba, not q)`. -/
def pl (bba : List (ℕ × ℚ)) (q : ℕ) : ℚ := 1 - bel bba (uNot q)

/-! ### BoundedPriorityQueue: src/dst/src/approx.rs, mod bpq -/

/-- Index of the first `None` slot (`iter_mut().find(|opt| opt.is_none())`). -/
def firstNoneIdx (buf : List (Option α)) : Option ℕ :=
  buf.findIdx? fun o => o.isNone

/-- Key of a slot.  The source unwraps the slot (`expect`); this helper is only
applied in branches whose invariant guarantees the slot is occupied, and
returns `0` on the unreachable `none`. -/
def bpqKey (o : Option (ℕ × ℚ)) : ℚ := o.elim 0 Prod.snd

/-- Index of the minimum-mass slot of a full buffer: `map f`, `enumerate`,
then `reduce(|acc, e| if acc.1 <= e.1 { acc } else { e })` (the first minimum
wins).  The source `expect`s a nonempty buffer; the `[]` case is unreachable
in context and returns `0`. -/
def bpqMinIdx (buf : List (Option (ℕ × ℚ))) : ℕ :=
  match buf.enum.map fun p => (p.1, bpqKey p.2) with
  | [] => 0
  | e :: rest => (rest.foldl (fun acc q => if acc.2 ≤ q.2 then acc else q) e).1

/-- BoundedPriorityQueue state: the backing buffer and the `initialized`
counter.  fn insert_by_key (keyed by the mass, `|z| z.1` in KX::approx):
below capacity fill the first `None` slot; once full, find the minimum slot
and replace it only if the incoming mass is strictly larger (`f(mem) < f(&x)`),
so a tie keeps the occupant.  Nothing is returned.  The two `expect`s
(no free slot while not initialized / an empty buffer) are unreachable under
the structure's invariant and are modelled as leaving the buffer unchanged. -/
def bpqInsertByKey (n : ℕ) (st : List (Option (ℕ × ℚ)) × ℕ) (x : ℕ × ℚ) :
    List (Option (ℕ × ℚ)) × ℕ :=
  if st.2 < n then
    match firstNoneIdx st.1 with
    | some i => (st.1.set i (some x), st.2 + 1)
    | none => (st.1, st.2 + 1)
  else
    let i := bpqMinIdx st.1
    match st.1.getD i none with
    | some mem => if mem.2 < x.2 then (st.1.set i (some x), st.2) else (st.1, st.2)
    | none => (st.1, st.2)

/-- KX::approx (src/dst/src/approx.rs, impl Approximation for KX): push every
element through a BoundedPriorityQueue of capacity `n`, take the retained
elements, divide each retained mass by their sum `bot`, and pad the `n`-slot
output with `(EMPTY, 0.0)`. -/
def kxApprox (n : ℕ) (bba : List (ℕ × ℚ)) : List (ℕ × ℚ) :=
  let st := bba.foldl (bpqInsertByKey n) (List.replicate n none, 0)
  let retained := st.1.filterMap id
  let bot : ℚ := (retained.map Prod.snd).sum
  (retained.map fun e => (e.1, e.2 / bot)) ++
    List.replicate (n - retained.length) (uEmpty, 0)

/-! ### PriorityHeap: src/dst/src/container.rs, mod heap -/

/-- Fuel-driven `usize::ilog2` (floor of log2); `ilog2Fuel n n` matches
`usize::ilog2(n)` for `n ≥ 1` since the value halves at every step. -/
def ilog2Fuel : ℕ → ℕ → ℕ
  | 0, _ => 0
  | fuel + 1, n => if 2 ≤ n then ilog2Fuel fuel (n / 2) + 1 else 0

/-- `usize::ilog2(n)`, the index at which heap leaves begin (LEAF_IDX). -/
def ilog2 (n : ℕ) : ℕ := ilog2Fuel n n

/-- const fn parent: `(x - 2) / 2` for even `x`, `(x - 1) / 2` for odd `x`
(never called on the root). -/
def phParent (x : ℕ) : ℕ := if x % 2 = 0 then (x - 2) / 2 else (x - 1) / 2

/-- `slice::swap` on the backing buffer. -/
def listSwap (buf : List (Option α)) (i j : ℕ) : List (Option α) :=
  (buf.set i (buf.getD j none)).set j (buf.getD i none)

/-- Key of a heap slot; the source unwraps (`unwrap`) a slot that is occupied
at every call site, so the `none` case returns `0` and is unreachable in
context. -/
def phKey (f : α → ℚ) (o : Option α) : ℚ := o.elim 0 f

/-- fn heap_upkeep: sift the child up while it is larger than its parent.
The source recurses on `parent(child_idx) < child_idx`; here the recursion is
driven by a fuel argument instantiated with `child_idx`, which bounds the
number of steps.  A comparison involving an unoccupied slot leaves the buffer
unchanged (the source `unwrap`s; every call site has the compared slots
occupied). -/
def phUpkeepAux (f : α → ℚ) : ℕ → List (Option α) → ℕ → List (Option α)
  | 0, buf, _ => buf
  | fuel + 1, buf, childIdx =>
    if childIdx = 0 then buf
    else
      let p := phParent childIdx
      match buf.getD p none, buf.getD childIdx none with
      | some pv, some cv =>
        if f pv < f cv then phUpkeepAux f fuel (listSwap buf p childIdx) p
        else buf
      | _, _ => buf

/-- fn heap_upkeep entry point. -/
def phUpkeep (f : α → ℚ) (buf : List (Option α)) (childIdx : ℕ) :
    List (Option α) :=
  phUpkeepAux f childIdx buf childIdx

/-- Minimum-key index within the leaf slice, from
`reduce(|(a, min), (b, e)| if f(min) > f(e) { (b, e) } else { (a, min) })`
(the first minimum wins).  The `[]` case is unreachable in context. -/
def phMinIdx (f : α → ℚ) (buf : List (Option α)) : ℕ :=
  match buf.enum.map fun p => (p.1, phKey f p.2) with
  | [] => 0
  | e :: rest => (rest.foldl (fun acc q => if acc.2 > q.2 then q else acc) e).1

/-- PriorityHeap::insert_by_key: if some slot is `None`, fill the first one;
otherwise replace the minimum-key slot of the leaf slice `buf[LEAF_IDX..]`
unconditionally, returning the ejected value; then run heap_upkeep at the
written index. -/
def phInsertByKey (f : α → ℚ) (buf : List (Option α)) (v : α) :
    List (Option α) × Option α :=
  match firstNoneIdx buf with
  | some idx => (phUpkeep f (buf.set idx (some v)) idx, none)
  | none =>
    let li := ilog2 buf.length
    let idx := li + phMinIdx f (buf.drop li)
    let evicted := buf.getD idx none
    (phUpkeep f (buf.set idx (some v)) idx, evicted)

/-- One iteration of the Summarize loop: heap insertion keyed by the mass,
folding an evicted element into the running `merged = (cup, sum)` residual. -/
def summarizeStep (st : List (Option (ℕ × ℚ)) × (ℕ × ℚ)) (elem : ℕ × ℚ) :
    List (Option (ℕ × ℚ)) × (ℕ × ℚ) :=
  let r := phInsertByKey Prod.snd st.1 elem
  match r.2 with
  | some ev => (r.1, (uCup st.2.1 ev.1, st.2.2 + ev.2))
  | none => (r.1, st.2)

/-- Summarize::approx (src/dst/src/approx.rs, mod approx_rw): feed every
element into a PriorityHeap of capacity `n` via `summarizeStep`; then read the
heap buffer out slot by slot defaulting to `(EMPTY, 0.0)`, and merge `merged`
into slot `n - 1`.  For `n = 0` the source would panic on
`buf.get(N - 1).unwrap()`; the theorems below assume `1 ≤ n`. -/
def summarizeApprox (n : ℕ) (bba : List (ℕ × ℚ)) : List (ℕ × ℚ) :=
  let st := bba.foldl summarizeStep (List.replicate n none, (uEmpty, 0))
  let buf := st.1.map fun o => o.getD (uEmpty, 0)
  let lastv := buf.getD (n - 1) (uEmpty, 0)
  buf.set (n - 1) (uCup st.2.1 lastv.1, st.2.2 + lastv.2)

/-! ### FNV-1a hash: src/dst/src/comb.rs, mod hash -/

/-- FNV prime, taken from the source. -/
def fnvPrime : ℕ := 0x100000001b3

/-- FNV offset basis, taken from the source. -/
def fnvBasis : ℕ := 0xcbf29ce484222325

/-- One byte step of FNV-1a: XOR then wrapping multiply by the prime
(`overflowing_mul`, i.e. mod `2^64`). -/
def fnvStep (state byte : ℕ) : ℕ := (state ^^^ byte) * fnvPrime % 2 ^ 64

/-- fn write + fn finish: fold the bytes through `fnvStep` from the basis. -/
def fnv1a (bytes : List ℕ) : ℕ := bytes.foldl fnvStep fnvBasis

/-- The 8 little-endian bytes a `usize` key hashes as
(`Hasher::write_usize` via `write(&n.to_ne_bytes())`). -/
def usizeLEBytes (k : ℕ) : List ℕ :=
  (List.range 8).map fun i => k >>> (8 * i) % 256

/-- NoAllocHashMap::compute_offset: FNV-1a of the key's bytes, mod `n`. -/
def fnvOffset (n k : ℕ) : ℕ := fnv1a (usizeLEBytes k) % n

/-! ### NoAllocHashMap: src/dst/src/comb.rs, mod hashmap -/

/-- Result of the linear probe shared by `insert` and `get`: the first slot
holding the key, the first free slot, or loop exhaustion. -/
inductive ProbeRes where
  | found : ℕ → ProbeRes
  | freeAt : ℕ → ProbeRes
  | exhausted : ProbeRes

/-- Slot access `buf[idx]` (always in range in the source loop). -/
def slotAt (buf : List (Option (ℕ × ℚ))) (i : ℕ) : Option (ℕ × ℚ) :=
  buf.getD i none

/-- The probe loop `for i in 0..N { let idx = (offset + i) % N; ... }`:
`fuel` counts the remaining iterations (initially `N`), `j` the current `i`. -/
def naFindAux (buf : List (Option (ℕ × ℚ))) (start k : ℕ) :
    ℕ → ℕ → ProbeRes
  | 0, _ => .exhausted
  | fuel + 1, j =>
    match slotAt buf ((start + j) % buf.length) with
    | none => .freeAt ((start + j) % buf.length)
    | some kv =>
      if kv.1 = k then .found ((start + j) % buf.length)
      else naFindAux buf start k fuel (j + 1)

/-- Full probe over all `N` slots starting from the key's offset. -/
def naFind (buf : List (Option (ℕ × ℚ))) (start k : ℕ) : ProbeRes :=
  naFindAux buf start k buf.length 0

/-- NoAllocHashMap::insert: probe from `compute_offset(k)`; on a key match add
`v` to the stored mass, on a free slot store `(k, v)`; if the loop exhausts,
`unreachable!` (modelled as `none`). -/
def naInsert (off : ℕ → ℕ) (buf : List (Option (ℕ × ℚ))) (k : ℕ) (v : ℚ) :
    Option (List (Option (ℕ × ℚ))) :=
  match naFind buf (off k) k with
  | .found i =>
    match slotAt buf i with
    | some kv => some (buf.set i (some (kv.1, kv.2 + v)))
    | none => none
  | .freeAt i => some (buf.set i (some (k, v)))
  | .exhausted => none

/-- NoAllocHashMap::get: probe from the key's offset; a key match returns the
stored mass, a free slot (or exhaustion) returns `None`. -/
def naGet (off : ℕ → ℕ) (buf : List (Option (ℕ × ℚ))) (k : ℕ) : Option ℚ :=
  match naFind buf (off k) k with
  | .found i =>
    match slotAt buf i with
    | some kv => some kv.2
    | none => none
  | .freeAt _ => none
  | .exhausted => none

/-- Insert a list of pairs left to right (the N² pair loop of Dempster::comb). -/
def naInsertAll (off : ℕ → ℕ) (pairs : List (ℕ × ℚ))
    (buf : List (Option (ℕ × ℚ))) : Option (List (Option (ℕ × ℚ))) :=
  pairs.foldlM (fun b p => naInsert off b p.1 p.2) buf

/-- NoAllocHashMap::scale: multiply every stored mass by `c`
(`*v = *v * scale`). -/
def naScale (c : ℚ) (buf : List (Option (ℕ × ℚ))) :
    List (Option (ℕ × ℚ)) :=
  buf.map (Option.map fun kv => (kv.1, kv.2 * c))

/-! ### SummationEM: src/dst/src/container.rs, mod em -/

/-- SummationEM::insert's exhaustive search: the first slot that is free or
holds the key (`find(|z| !z.is_some_and(|y| y.0 != k))`). -/
def semFindIdx (k : ℕ) (buf : List (Option (ℕ × ℚ))) : Option ℕ :=
  buf.findIdx? fun o => o.elim true fun y => y.1 == k

/-- SummationEM::insert: sum on a key match, store on a free slot; `expect`
panics (modelled `none`) when no slot qualifies.  The `[[...; N]; N]` backing
buffer is modelled flattened, as the source iterates it
(`iter_mut().flatten()`). -/
def semInsert (buf : List (Option (ℕ × ℚ))) (k : ℕ) (v : ℚ) :
    Option (List (Option (ℕ × ℚ))) :=
  match semFindIdx k buf with
  | none => none
  | some i =>
    match buf.getD i none with
    | none => some (buf.set i (some (k, v)))
    | some y => some (buf.set i (some (y.1, y.2 + v)))

/-- Insert a list of pairs left to right into a SummationEM. -/
def semInsertAll (pairs : List (ℕ × ℚ)) (buf : List (Option (ℕ × ℚ))) :
    Option (List (Option (ℕ × ℚ))) :=
  pairs.foldlM (fun b p => semInsert b p.1 p.2) buf

/-! ### Dempster::comb: src/dst/src/comb.rs -/

/-- The N² pairwise products of one combination step:
`acc.iter().flat_map(|x1| e.iter().map(move |x2| (x1, x2)))`, each mapped to
`(intersection, product)` exactly as inserted by the source loop. -/
def dempsterPairs (a e : List (ℕ × ℚ)) : List (ℕ × ℚ) :=
  a.flatMap fun x1 => e.map fun x2 => (uCap x1.1 x2.1, x1.2 * x2.2)

/-- The accumulator table after the pair loop of one fold step of
Dempster::comb: a `NoAllocHashMap::<N2>` (`N2 = N * N` with both inputs of
length `N`) filled from its default (all-`None`) state. -/
def dempsterRawTable (a e : List (ℕ × ℚ)) : Option (List (Option (ℕ × ℚ))) :=
  naInsertAll (fnvOffset (a.length * e.length)) (dempsterPairs a e)
    (List.replicate (a.length * e.length) none)

/-- The table after the conflict scaling of one fold step:
`conflict = 1 / (1 - map.get(&EMPTY).unwrap_or(0))`, then `map.scale(conflict)`.
There is no check against `K ≈ 1`. -/
def dempsterScaledTable (a e : List (ℕ × ℚ)) :
    Option (List (Option (ℕ × ℚ))) :=
  (dempsterRawTable a e).map fun t =>
    naScale (1 / (1 - (naGet (fnvOffset (a.length * e.length)) t uEmpty).getD 0)) t

/-- One fold step of Dempster::comb.  After scaling the table the source hits
`todo!()` unconditionally, so the step never produces a value (`none` models
the panic; the capacity-exhaustion panic inside `insert` is also `none`). -/
def dempsterFoldStep (a e : List (ℕ × ℚ)) : Option (List (ℕ × ℚ)) :=
  (dempsterScaledTable a e).bind fun _ => none

/-- Dempster::comb: approximate every input, then fold the steps starting
from `build_arr` (`N` copies of `(EMPTY, 0.0)`). -/
def dempsterComb (n : ℕ) (scheme : List (ℕ × ℚ) → List (ℕ × ℚ))
    (bbas : List (List (ℕ × ℚ))) : Option (List (ℕ × ℚ)) :=
  (bbas.map scheme).foldl (fun acc e => acc.bind fun a => dempsterFoldStep a e)
    (some (List.replicate n (uEmpty, 0)))

/-! ### Orchestration: src/dst/src/dst.rs, fn comb_approx -/

/-- fn comb_approx: approximate each input, `reduce` by combining and
re-approximating, `expect` on an empty input (modelled `none`), then pad the
result to `n` slots with `(EMPTY, 0.0)`. -/
def combApprox (n : ℕ) (af : List (ℕ × ℚ) → List (ℕ × ℚ))
    (bbas : List (List (ℕ × ℚ))) : Option (List (ℕ × ℚ)) :=
  match bbas.map af with
  | [] => none
  | a :: rest =>
    (rest.foldl (fun acc e => acc.bind fun accv => (dempsterFoldStep accv e).map af)
        (some a)).map
      fun r => (r ++ List.replicate (n - r.length) (uEmpty, 0)).take n

/-- Count of occupied slots of a bounded buffer. -/
def countSome : List (Option α) → ℕ
  | [] => 0
  | none :: t => countSome t
  | some _ :: t => countSome t + 1

/-- Mass stored in an optional slot. -/
def optMass (o : Option (ℕ × ℚ)) : ℚ := o.elim 0 Prod.snd

/-- Total mass of the occupied slots of a bounded buffer. -/
def optMassSum (buf : List (Option (ℕ × ℚ))) : ℚ :=
  ((buf.filterMap id).map Prod.snd).sum

/-- Total mass of an assignment. -/
def massSum (bba : List (ℕ × ℚ)) : ℚ := (bba.map Prod.snd).sum

/-- Sum of the masses an insertion history carries for key `k` (the value a
key-summing table must associate to `k`). -/
def histSum (k : ℕ) (hist : List (ℕ × ℚ)) : ℚ :=
  ((hist.filter fun p => p.1 == k).map Prod.snd).sum

/-- Whether an insertion history mentions key `k`. -/
def histMem (k : ℕ) (hist : List (ℕ × ℚ)) : Bool :=
  hist.any fun p => p.1 == k

/-! ### Linear-probing invariants for the NoAllocHashMap model -/

/-- Slot index visited at probe step `j` from `start`. -/
def probeIdx (len start j : ℕ) : ℕ := (start + j) % len

/-- The probe for key `k` continues past step `j`: the slot is occupied by a
different key. -/
def contAt (buf : List (Option (ℕ × ℚ))) (start k j : ℕ) : Prop :=
  ∃ kv : ℕ × ℚ, slotAt buf (probeIdx buf.length start j) = some kv ∧ kv.1 ≠ k

/-- Slot `s` is reachable from `start` through fully-occupied slots: the core
linear-probing invariant that makes lookups find stored keys. -/
def pathAt (buf : List (Option (ℕ × ℚ))) (start s : ℕ) : Prop :=
  ∃ j < buf.length, probeIdx buf.length start j = s ∧
    ∀ t < j, (slotAt buf (probeIdx buf.length start t)).isSome = true

/-- No key occupies two distinct slots. -/
def wfUniq (buf : List (Option (ℕ × ℚ))) : Prop :=
  ∀ i₁ i₂ kv₁ kv₂, slotAt buf i₁ = some kv₁ → slotAt buf i₂ = some kv₂ →
    kv₁.1 = kv₂.1 → i₁ = i₂

/-- Every stored key is reachable from its hash offset. -/
def wfPath (off : ℕ → ℕ) (buf : List (Option (ℕ × ℚ))) : Prop :=
  ∀ i kv, slotAt buf i = some kv → pathAt buf (off kv.1) i

/-- Full table invariant relating a NoAllocHashMap buffer to the history of
insertions performed on it: well-formed probing, stored values are the
per-key sums of the history, stored keys are exactly the history's keys, and
occupancy is bounded by the history length. -/
def TInv (off : ℕ → ℕ) (hist : List (ℕ × ℚ))
    (buf : List (Option (ℕ × ℚ))) : Prop :=
  wfUniq buf ∧ wfPath off buf ∧
  (∀ i kv, slotAt buf i = some kv → kv.2 = histSum kv.1 hist) ∧
  (∀ k, (∃ i v, slotAt buf i = some (k, v)) ↔ histMem k hist = true) ∧
  countSome buf ≤ hist.length

/-! ## Helper lemmas -/

theorem uIsSubset_iff {a b : ℕ} : uIsSubset a b = true ↔ a &&& b = a := by
  simp [uIsSubset]

theorem uIsSubset_empty (b : ℕ) : uIsSubset uEmpty b = true := by
  simp [uIsSubset, uEmpty]

/-- A 64-bit set that is a subset of both `q` and its complement is empty. -/
theorem subset_self_and_compl_eq_zero {p q : ℕ} (hp : p < 2 ^ 64)
    (h1 : p &&& q = p) (h2 : p &&& uNot q = p) : p = 0 := by
  apply Nat.eq_of_testBit_eq
  intro i
  rw [Nat.zero_testBit]
  by_cases hb : p.testBit i
  · exfalso
    have hq : q.testBit i = true := by
      have h := congrArg (fun x => x.testBit i) h1
      simp only [Nat.testBit_and, hb, Bool.true_and] at h
      exact h
    have hnq : (q ^^^ usizeMask).testBit i = true := by
      have h := congrArg (fun x => x.testBit i) h2
      simp only [uNot] at h
      simp only [Nat.testBit_and, hb, Bool.true_and] at h
      exact h
    rw [Nat.testBit_xor, hq, Bool.true_xor] at hnq
    have hm : usizeMask.testBit i = false := by
      cases hcase : usizeMask.testBit i
      · rfl
      · rw [hcase] at hnq
        exact absurd hnq (by simp)
    have hge : 64 ≤ i := by
      by_contra hlt
      push_neg at hlt
      rw [show usizeMask = 2 ^ 64 - 1 from rfl, Nat.testBit_two_pow_sub_one] at hm
      simp [hlt] at hm
    have hpf : p.testBit i = false :=
      Nat.testBit_lt_two_pow
        (lt_of_lt_of_le hp (Nat.pow_le_pow_right (by norm_num) hge))
    rw [hb] at hpf
    exact absurd hpf (by simp)
  · simpa using hb

theorem bel_cons (e : ℕ × ℚ) (t : List (ℕ × ℚ)) (q : ℕ) :
    bel (e :: t) q = (if uIsSubset e.1 q = true then e.2 else 0) + bel t q := by
  simp only [bel, List.filter_cons]
  by_cases hc : uIsSubset e.1 q = true
  · simp [hc]
  · simp [hc]

theorem massSum_cons (e : ℕ × ℚ) (t : List (ℕ × ℚ)) :
    massSum (e :: t) = e.2 + massSum t := by
  simp [massSum]

theorem bel_append (l₁ l₂ : List (ℕ × ℚ)) (q : ℕ) :
    bel (l₁ ++ l₂) q = bel l₁ q + bel l₂ q := by
  simp [bel]

theorem bel_eq_zero_of_zero_mass (l : List (ℕ × ℚ)) (q : ℕ)
    (h : ∀ e ∈ l, e.2 = 0) : bel l q = 0 := by
  induction l with
  | nil => simp [bel]
  | cons e t ih =>
    have he := h e (by simp)
    have ih' := ih fun x hx => h x (by simp [hx])
    rw [bel_cons, ih', he]
    simp

theorem bel_replicate_empty (k : ℕ) (q : ℕ) :
    bel (List.replicate k (uEmpty, 0)) q = 0 := by
  apply bel_eq_zero_of_zero_mass
  intro e he
  rw [List.eq_of_mem_replicate he]

/-- The two belief sums of a query and its complement are bounded by the total
mass, provided empty focal elements carry no mass. -/
theorem bel_add_bel_uNot_le (bba : List (ℕ × ℚ)) (q : ℕ)
    (h : ∀ e ∈ bba, 0 ≤ e.2 ∧ e.1 < 2 ^ 64 ∧ (e.1 = 0 → e.2 = 0)) :
    bel bba q + bel bba (uNot q) ≤ massSum bba := by
  induction bba with
  | nil => simp [bel, massSum]
  | cons e t ih =>
    have he := h e (by simp)
    have ih' := ih fun x hx => h x (by simp [hx])
    rw [bel_cons, bel_cons, massSum_cons]
    by_cases h1 : uIsSubset e.1 q = true <;>
      by_cases h2 : uIsSubset e.1 (uNot q) = true
    · have hz : e.1 = 0 :=
        subset_self_and_compl_eq_zero he.2.1 (uIsSubset_iff.1 h1) (uIsSubset_iff.1 h2)
      have hm : e.2 = 0 := he.2.2 hz
      rw [if_pos h1, if_pos h2, hm]
      linarith
    · rw [if_pos h1, if_neg h2]
      linarith
    · rw [if_neg h1, if_pos h2]
      linarith
    · rw [if_neg h1, if_neg h2]
      have := he.1
      linarith

/-! ### List bookkeeping lemmas -/

theorem countSome_le_length (l : List (Option α)) : countSome l ≤ l.length := by
  induction l with
  | nil => simp [countSome]
  | cons o t ih => cases o <;> simp [countSome] <;> omega

theorem countSome_eq_length_of_all_some (l : List (Option α))
    (h : ∀ o ∈ l, o.isSome) : countSome l = l.length := by
  induction l with
  | nil => simp [countSome]
  | cons o t ih =>
    have ho := h o (by simp)
    cases o with
    | none => simp at ho
    | some a => simp [countSome, ih fun x hx => h x (by simp [hx])]

theorem exists_none_of_countSome_lt (l : List (Option α))
    (h : countSome l < l.length) : ∃ i < l.length, l.getD i none = none := by
  induction l with
  | nil => simp at h
  | cons o t ih =>
    cases o with
    | none => exact ⟨0, by simp, rfl⟩
    | some a =>
      simp only [countSome, List.length_cons] at h
      obtain ⟨i, hi, hget⟩ := ih (by omega)
      exact ⟨i + 1, by simpa using hi, by simpa using hget⟩

theorem getD_set_self (l : List (Option α)) (i : ℕ) (x : Option α)
    (h : i < l.length) : (l.set i x).getD i none = x := by
  simp [List.getD_eq_getElem?_getD, List.getElem?_set_self (by simpa using h)]

theorem getD_set_other (l : List (Option α)) (i j : ℕ) (x : Option α)
    (h : i ≠ j) : (l.set i x).getD j none = l.getD j none := by
  simp [List.getD_eq_getElem?_getD, List.getElem?_set_ne h]

theorem countSome_set_of_none (l : List (Option α)) (i : ℕ) (x : α)
    (hi : i < l.length) (h : l.getD i none = none) :
    countSome (l.set i (some x)) = countSome l + 1 := by
  induction l generalizing i with
  | nil => simp at hi
  | cons o t ih =>
    cases i with
    | zero =>
      simp only [List.getD_eq_getElem?_getD] at h
      simp at h
      subst h
      simp [countSome]
    | succ m =>
      cases o with
      | none =>
        simp only [List.set_cons_succ, countSome]
        exact ih m (by simpa using hi) (by simpa using h)
      | some a =>
        simp only [List.set_cons_succ, countSome]
        rw [ih m (by simpa using hi) (by simpa using h)]

theorem countSome_set_of_some (l : List (Option α)) (i : ℕ) (x y : α)
    (h : l.getD i none = some y) :
    countSome (l.set i (some x)) = countSome l := by
  induction l generalizing i with
  | nil => simp [List.getD_eq_getElem?_getD] at h
  | cons o t ih =>
    cases i with
    | zero =>
      simp only [List.getD_eq_getElem?_getD] at h
      simp at h
      subst h
      simp [countSome]
    | succ m =>
      cases o with
      | none =>
        simp only [List.set_cons_succ, countSome]
        exact ih m (by simpa using h)
      | some a =>
        simp only [List.set_cons_succ, countSome]
        rw [ih m (by simpa using h)]

theorem countSome_replicate_none (n : ℕ) :
    countSome (List.replicate n (none : Option α)) = 0 := by
  induction n with
  | zero => simp [countSome]
  | succ m ih => simp [List.replicate_succ, countSome, ih]

theorem all_some_of_countSome_eq (l : List (Option α))
    (h : countSome l = l.length) : ∀ i < l.length, ∃ y, l.getD i none = some y := by
  induction l with
  | nil => intro i hi; simp at hi
  | cons o t ih =>
    intro i hi
    cases o with
    | none =>
      exfalso
      simp only [countSome, List.length_cons] at h
      have := countSome_le_length t
      omega
    | some a =>
      cases i with
      | zero => exact ⟨a, rfl⟩
      | succ m =>
        simp only [countSome, List.length_cons] at h
        exact ih (by omega) m (by simpa using hi)

theorem getD_eq_some_mem {l : List (Option α)} {i : ℕ} {y : α}
    (h : l.getD i none = some y) : some y ∈ l := by
  rw [List.getD_eq_getElem?_getD] at h
  cases hg : l[i]? with
  | none => simp [hg] at h
  | some o =>
    simp [hg] at h
    subst h
    exact List.mem_iff_getElem?.2 ⟨i, hg⟩

theorem mem_set_of_mem_of_ne {l : List (Option α)} {i : ℕ} {x : Option α}
    {e : α} (hm : some e ∈ l) (hne : l.getD i none ≠ some e) :
    some e ∈ l.set i x := by
  obtain ⟨j, hj, hget⟩ := List.mem_iff_getElem.1 hm
  have hij : i ≠ j := by
    intro hh
    subst hh
    rw [List.getD_eq_getElem?_getD, List.getElem?_eq_getElem hj, hget] at hne
    simp at hne
  refine List.mem_iff_getElem.2 ⟨j, by simpa using hj, ?_⟩
  rw [List.getElem_set_ne hij]
  exact hget

theorem mem_set_self {l : List (Option α)} {i : ℕ} (x : Option α)
    (h : i < l.length) : x ∈ l.set i x := by
  refine List.mem_iff_getElem.2 ⟨i, by simpa using h, ?_⟩
  simp

/-- A fold that at each step keeps either the accumulator or the element
yields a value among the start and the elements. -/
theorem foldl_pick_mem (l : List β) (e : β) (f : β → β → β)
    (hf : ∀ a b, f a b = a ∨ f a b = b) : l.foldl f e ∈ e :: l := by
  induction l generalizing e with
  | nil => simp
  | cons x t ih =>
    simp only [List.foldl_cons]
    rcases hf e x with h | h <;> rw [h]
    · rcases List.mem_cons.1 (ih e) with h' | h'
      · simp [h']
      · simp [h']
    · rcases List.mem_cons.1 (ih x) with h' | h'
      · simp [h']
      · simp [h']

theorem sum_map_div (l : List ℚ) (b : ℚ) :
    (l.map fun x => x / b).sum = l.sum / b := by
  induction l with
  | nil => simp
  | cons x t ih => simp [ih, add_div]

theorem sum_nonpos_of_forall (l : List ℚ) (h : ∀ x ∈ l, x ≤ 0) : l.sum ≤ 0 := by
  induction l with
  | nil => simp
  | cons x t ih =>
    have := h x (by simp)
    have := ih fun y hy => h y (by simp [hy])
    simp only [List.sum_cons]
    linarith

theorem sum_nonneg_of_forall (l : List ℚ) (h : ∀ x ∈ l, 0 ≤ x) : 0 ≤ l.sum := by
  induction l with
  | nil => simp
  | cons x t ih =>
    have := h x (by simp)
    have := ih fun y hy => h y (by simp [hy])
    simp only [List.sum_cons]
    linarith

theorem le_sum_of_mem (l : List ℚ) (x : ℚ) (hx : x ∈ l)
    (h : ∀ y ∈ l, 0 ≤ y) : x ≤ l.sum := by
  induction l with
  | nil => simp at hx
  | cons a t ih =>
    simp only [List.sum_cons]
    rcases List.mem_cons.1 hx with h' | h'
    · subst h'
      have ht : 0 ≤ t.sum := sum_nonneg_of_forall t fun y hy => h y (by simp [hy])
      linarith
    · have := ih h' fun y hy => h y (by simp [hy])
      have ha := h a (by simp)
      linarith

/-! ### BoundedPriorityQueue invariants -/

/-- Structural invariant of a BoundedPriorityQueue state: the buffer has the
fixed capacity, the `initialized` counter counts the occupied slots, and it
never exceeds the capacity. -/
def BpqInv (n : ℕ) (st : List (Option (ℕ × ℚ)) × ℕ) : Prop :=
  st.1.length = n ∧ countSome st.1 = st.2 ∧ st.2 ≤ n

theorem firstNoneIdx_spec {l : List (Option α)} {i : ℕ}
    (h : firstNoneIdx l = some i) : i < l.length ∧ l.getD i none = none := by
  rw [firstNoneIdx, List.findIdx?_eq_some_iff_getElem] at h
  obtain ⟨hlt, hp, _⟩ := h
  refine ⟨hlt, ?_⟩
  cases hg : l[i] with
  | none => simp [List.getD_eq_getElem?_getD, List.getElem?_eq_getElem hlt, hg]
  | some a => rw [hg] at hp; simp at hp

theorem firstNoneIdx_isSome_of_count {l : List (Option α)}
    (h : countSome l < l.length) : (firstNoneIdx l).isSome := by
  cases hf : firstNoneIdx l with
  | some i => simp
  | none =>
    exfalso
    rw [firstNoneIdx, List.findIdx?_eq_none_iff] at hf
    have : countSome l = l.length := by
      apply countSome_eq_length_of_all_some
      intro o ho
      have := hf o ho
      cases o <;> simp_all
    omega

theorem bpqMinIdx_lt_length (l : List (Option (ℕ × ℚ))) (h : l ≠ []) :
    bpqMinIdx l < l.length := by
  rw [bpqMinIdx]
  cases he : l.enum.map fun p => (p.1, bpqKey p.2) with
  | nil =>
    exfalso
    apply h
    cases l with
    | nil => rfl
    | cons a t => simp [List.enum, List.enumFrom] at he
  | cons e rest =>
    show (rest.foldl (fun acc q => if acc.2 ≤ q.2 then acc else q) e).1 < l.length
    have hmem := foldl_pick_mem rest e (fun acc q => if acc.2 ≤ q.2 then acc else q)
      (fun a b => by by_cases hc : a.2 ≤ b.2 <;> simp [hc])
    have hmem' : rest.foldl (fun acc q => if acc.2 ≤ q.2 then acc else q) e ∈
        l.enum.map fun p => (p.1, bpqKey p.2) := by
      rw [he]
      exact hmem
    obtain ⟨p, hp, hep⟩ := List.mem_map.1 hmem'
    have := List.mem_enum_iff_getElem?.1 hp
    have hlt : p.1 < l.length := (List.getElem?_eq_some_iff.1 this).1
    rw [← hep]
    exact hlt

theorem bpqInsert_eq_fill {n : ℕ} {st : List (Option (ℕ × ℚ)) × ℕ} {x : ℕ × ℚ}
    {i : ℕ} (hfill : st.2 < n) (hf : firstNoneIdx st.1 = some i) :
    bpqInsertByKey n st x = (st.1.set i (some x), st.2 + 1) := by
  rw [bpqInsertByKey, if_pos hfill, hf]

theorem bpqInsert_eq_full_replace {n : ℕ} {st : List (Option (ℕ × ℚ)) × ℕ}
    {x mem : ℕ × ℚ} (hfull : ¬ st.2 < n)
    (hg : st.1.getD (bpqMinIdx st.1) none = some mem) (hlt : mem.2 < x.2) :
    bpqInsertByKey n st x = (st.1.set (bpqMinIdx st.1) (some x), st.2) := by
  rw [bpqInsertByKey, if_neg hfull]
  simp only [hg]
  rw [if_pos hlt]

theorem bpqInsert_eq_full_keep {n : ℕ} {st : List (Option (ℕ × ℚ)) × ℕ}
    {x mem : ℕ × ℚ} (hfull : ¬ st.2 < n)
    (hg : st.1.getD (bpqMinIdx st.1) none = some mem) (hlt : ¬ mem.2 < x.2) :
    bpqInsertByKey n st x = (st.1, st.2) := by
  rw [bpqInsertByKey, if_neg hfull]
  simp only [hg]
  rw [if_neg hlt]

/-- One BPQ insertion preserves the structural invariant. -/
theorem bpq_insert_inv (n : ℕ) (st : List (Option (ℕ × ℚ)) × ℕ) (x : ℕ × ℚ)
    (h : BpqInv n st) : BpqInv n (bpqInsertByKey n st x) := by
  obtain ⟨hlen, hcnt, hle⟩ := h
  by_cases hfill : st.2 < n
  · cases hf : firstNoneIdx st.1 with
    | none =>
      exfalso
      have := firstNoneIdx_isSome_of_count (l := st.1) (by omega)
      simp [hf] at this
    | some i =>
      obtain ⟨hi, hnone⟩ := firstNoneIdx_spec hf
      rw [bpqInsert_eq_fill hfill hf]
      refine ⟨by simpa using hlen, ?_, by omega⟩
      rw [countSome_set_of_none st.1 i x hi hnone, hcnt]
  · cases hg : st.1.getD (bpqMinIdx st.1) none with
    | none =>
      rw [bpqInsertByKey, if_neg hfill]
      simp only [hg]
      exact ⟨hlen, hcnt, hle⟩
    | some mem =>
      by_cases hlt : mem.2 < x.2
      · rw [bpqInsert_eq_full_replace hfill hg hlt]
        exact ⟨by simpa using hlen,
          by rw [countSome_set_of_some st.1 _ x mem hg]; exact hcnt, hle⟩
      · rw [bpqInsert_eq_full_keep hfill hg hlt]
        exact ⟨hlen, hcnt, hle⟩

/-- Every occupied slot after an insertion was occupied before or holds the
inserted element. -/
theorem bpq_insert_mem (n : ℕ) (st : List (Option (ℕ × ℚ)) × ℕ) (x e : ℕ × ℚ)
    (h : some e ∈ (bpqInsertByKey n st x).1) : some e ∈ st.1 ∨ e = x := by
  by_cases hfill : st.2 < n
  · cases hf : firstNoneIdx st.1 with
    | none =>
      rw [bpqInsertByKey, if_pos hfill] at h
      simp only [hf] at h
      exact Or.inl h
    | some i =>
      rw [bpqInsert_eq_fill hfill hf] at h
      rcases List.mem_or_eq_of_mem_set h with h' | h'
      · exact Or.inl h'
      · simp at h'
        exact Or.inr h'
  · cases hg : st.1.getD (bpqMinIdx st.1) none with
    | none =>
      rw [bpqInsertByKey, if_neg hfill] at h
      simp only [hg] at h
      exact Or.inl h
    | some mem =>
      by_cases hlt : mem.2 < x.2
      · rw [bpqInsert_eq_full_replace hfill hg hlt] at h
        rcases List.mem_or_eq_of_mem_set h with h' | h'
        · exact Or.inl h'
        · simp at h'
          exact Or.inr h'
      · rw [bpqInsert_eq_full_keep hfill hg hlt] at h
        exact Or.inl h

/-- Insertion preserves non-negativity of the stored masses. -/
theorem bpq_insert_nonneg (n : ℕ) (st : List (Option (ℕ × ℚ)) × ℕ) (x : ℕ × ℚ)
    (hst : ∀ e : ℕ × ℚ, some e ∈ st.1 → 0 ≤ e.2) (hx : 0 ≤ x.2) :
    ∀ e : ℕ × ℚ, some e ∈ (bpqInsertByKey n st x).1 → 0 ≤ e.2 := by
  intro e he
  rcases bpq_insert_mem n st x e he with h | h
  · exact hst e h
  · subst h; exact hx

/-- Insertion preserves the presence of a positively-weighted slot, and
establishes it when the inserted element is positive. -/
theorem bpq_insert_pos (n : ℕ) (st : List (Option (ℕ × ℚ)) × ℕ) (x : ℕ × ℚ)
    (hinv : BpqInv n st) (hn : 1 ≤ n)
    (h : (∃ e : ℕ × ℚ, some e ∈ st.1 ∧ 0 < e.2) ∨ 0 < x.2) :
    ∃ e : ℕ × ℚ, some e ∈ (bpqInsertByKey n st x).1 ∧ 0 < e.2 := by
  obtain ⟨hlen, hcnt, hle⟩ := hinv
  by_cases hfill : st.2 < n
  · cases hf : firstNoneIdx st.1 with
    | none =>
      exfalso
      have := firstNoneIdx_isSome_of_count (l := st.1) (by omega)
      simp [hf] at this
    | some i =>
      obtain ⟨hi, hnone⟩ := firstNoneIdx_spec hf
      rw [bpqInsert_eq_fill hfill hf]
      rcases h with ⟨e, he, hpos⟩ | hxpos
      · refine ⟨e, ?_, hpos⟩
        exact mem_set_of_mem_of_ne he (by rw [hnone]; simp)
      · exact ⟨x, mem_set_self _ hi, hxpos⟩
  · have hcount : countSome st.1 = st.1.length := by omega
    have hne : st.1 ≠ [] := by
      intro hempty
      rw [hempty] at hlen
      simp at hlen
      omega
    have hmi := bpqMinIdx_lt_length st.1 hne
    cases hg : st.1.getD (bpqMinIdx st.1) none with
    | none =>
      exfalso
      obtain ⟨y, hy⟩ := all_some_of_countSome_eq st.1 hcount _ hmi
      rw [hg] at hy
      simp at hy
    | some mem =>
      by_cases hlt : mem.2 < x.2
      · rw [bpqInsert_eq_full_replace hfill hg hlt]
        rcases h with ⟨e, he, hpos⟩ | hxpos
        · by_cases hee : st.1.getD (bpqMinIdx st.1) none = some e
          · have hme : mem = e := by rw [hg] at hee; simpa using hee
            refine ⟨x, mem_set_self _ hmi, ?_⟩
            rw [← hme] at hpos
            linarith
          · exact ⟨e, mem_set_of_mem_of_ne he hee, hpos⟩
        · exact ⟨x, mem_set_self _ hmi, hxpos⟩
      · rw [bpqInsert_eq_full_keep hfill hg hlt]
        rcases h with ⟨e, he, hpos⟩ | hxpos
        · exact ⟨e, he, hpos⟩
        · refine ⟨mem, getD_eq_some_mem hg, ?_⟩
          push_neg at hlt
          linarith

theorem bpq_fold_inv (n : ℕ) (l : List (ℕ × ℚ)) (st : List (Option (ℕ × ℚ)) × ℕ)
    (h : BpqInv n st) : BpqInv n (l.foldl (bpqInsertByKey n) st) := by
  induction l generalizing st with
  | nil => exact h
  | cons x t ih => exact ih _ (bpq_insert_inv n st x h)

theorem bpq_fold_nonneg (n : ℕ) (l : List (ℕ × ℚ)) (st : List (Option (ℕ × ℚ)) × ℕ)
    (hst : ∀ e : ℕ × ℚ, some e ∈ st.1 → 0 ≤ e.2) (hl : ∀ p ∈ l, 0 ≤ p.2) :
    ∀ e : ℕ × ℚ, some e ∈ (l.foldl (bpqInsertByKey n) st).1 → 0 ≤ e.2 := by
  induction l generalizing st with
  | nil => exact hst
  | cons x t ih =>
    exact ih _ (bpq_insert_nonneg n st x hst (hl x (by simp)))
      fun p hp => hl p (by simp [hp])

theorem bpq_fold_pos_keep (n : ℕ) (l : List (ℕ × ℚ)) (st : List (Option (ℕ × ℚ)) × ℕ)
    (hinv : BpqInv n st) (hn : 1 ≤ n)
    (hpos : ∃ e : ℕ × ℚ, some e ∈ st.1 ∧ 0 < e.2) :
    ∃ e : ℕ × ℚ, some e ∈ (l.foldl (bpqInsertByKey n) st).1 ∧ 0 < e.2 := by
  induction l generalizing st with
  | nil => exact hpos
  | cons x t ih =>
    exact ih _ (bpq_insert_inv n st x hinv) (bpq_insert_pos n st x hinv hn (Or.inl hpos))

theorem bpq_fold_pos (n : ℕ) (l : List (ℕ × ℚ)) (st : List (Option (ℕ × ℚ)) × ℕ)
    (hinv : BpqInv n st) (hn : 1 ≤ n) (h : ∃ p ∈ l, 0 < p.2) :
    ∃ e : ℕ × ℚ, some e ∈ (l.foldl (bpqInsertByKey n) st).1 ∧ 0 < e.2 := by
  induction l generalizing st with
  | nil => simp at h
  | cons x t ih =>
    by_cases hx : 0 < x.2
    · exact bpq_fold_pos_keep n t _ (bpq_insert_inv n st x hinv) hn
        (bpq_insert_pos n st x hinv hn (Or.inr hx))
    · obtain ⟨p, hp, hppos⟩ := h
      rcases List.mem_cons.1 hp with h' | h'
      · subst h'
        exact absurd hppos hx
      · exact ih _ (bpq_insert_inv n st x hinv) ⟨p, h', hppos⟩

/-- KX rescales the retained masses to total exactly 1 whenever the input
masses are non-negative and sum to 1 (capacity at least 1). -/
theorem kx_mass_one (n : ℕ) (bba : List (ℕ × ℚ)) (hn : 1 ≤ n)
    (hnn : ∀ p ∈ bba, 0 ≤ p.2) (hs : massSum bba = 1) :
    massSum (kxApprox n bba) = 1 := by
  have hinv0 : BpqInv n (List.replicate n none, 0) :=
    ⟨by simp, countSome_replicate_none n, by omega⟩
  have hinv := bpq_fold_inv n bba _ hinv0
  have hnnbuf := bpq_fold_nonneg n bba (List.replicate n none, 0)
    (by intro e he; simp at he) hnn
  have hex : ∃ p ∈ bba, 0 < p.2 := by
    by_contra hc
    push_neg at hc
    have hle : massSum bba ≤ 0 := by
      apply sum_nonpos_of_forall
      intro y hy
      obtain ⟨p, hp, rfl⟩ := List.mem_map.1 hy
      exact hc p hp
    rw [hs] at hle
    linarith
  obtain ⟨e, he, hepos⟩ := bpq_fold_pos n bba _ hinv0 hn hex
  set st := bba.foldl (bpqInsertByKey n) (List.replicate n none, 0) with hst
  have hmemr : e ∈ st.1.filterMap id := List.mem_filterMap.2 ⟨some e, he, rfl⟩
  have hnnr : ∀ y ∈ (st.1.filterMap id).map Prod.snd, 0 ≤ y := by
    intro y hy
    obtain ⟨p, hp, rfl⟩ := List.mem_map.1 hy
    obtain ⟨o, ho, hoe⟩ := List.mem_filterMap.1 hp
    apply hnnbuf
    simpa [← hoe] using ho
  have hbot : 0 < ((st.1.filterMap id).map Prod.snd).sum :=
    lt_of_lt_of_le hepos
      (le_sum_of_mem _ e.2 (List.mem_map.2 ⟨e, hmemr, rfl⟩) hnnr)
  show massSum
      (((st.1.filterMap id).map fun p =>
          (p.1, p.2 / ((st.1.filterMap id).map Prod.snd).sum)) ++
        List.replicate (n - (st.1.filterMap id).length) (uEmpty, 0)) = 1
  rw [massSum, List.map_append, List.sum_append, List.map_map, List.map_replicate]
  have h1 : (Prod.snd ∘ fun p : ℕ × ℚ =>
      (p.1, p.2 / ((st.1.filterMap id).map Prod.snd).sum)) =
      fun p : ℕ × ℚ => p.2 / ((st.1.filterMap id).map Prod.snd).sum := rfl
  rw [h1]
  have h2 : ((st.1.filterMap id).map fun p : ℕ × ℚ =>
      p.2 / ((st.1.filterMap id).map Prod.snd).sum) =
      ((st.1.filterMap id).map Prod.snd).map
        fun y => y / ((st.1.filterMap id).map Prod.snd).sum := by
    rw [List.map_map]
    rfl
  rw [h2, sum_map_div, div_self (ne_of_gt hbot)]
  simp

/-- Filling phase of KX: as long as the capacity is not reached, insertions
append to the occupied prefix in input order. -/
theorem firstNoneIdx_map_some_append (l₁ : List (ℕ × ℚ)) (m : ℕ) (hm : 1 ≤ m) :
    firstNoneIdx ((l₁.map some : List (Option (ℕ × ℚ))) ++ List.replicate m none) =
      some l₁.length := by
  induction l₁ with
  | nil =>
    cases m with
    | zero => omega
    | succ k => simp [firstNoneIdx, List.replicate_succ, List.findIdx?_cons]
  | cons a t ih =>
    simp only [List.map_cons, List.cons_append, firstNoneIdx, List.findIdx?_cons,
      Option.isNone_some, Bool.false_eq_true, if_false]
    rw [firstNoneIdx] at ih
    rw [show 0 + 1 = 1 from rfl, List.findIdx?_succ, ih]
    simp

theorem bpq_fill_run (n : ℕ) :
    ∀ (l done : List (ℕ × ℚ)), done.length + l.length ≤ n →
      l.foldl (bpqInsertByKey n)
        ((done.map some : List (Option (ℕ × ℚ))) ++
          List.replicate (n - done.length) none, done.length) =
      ((done ++ l).map some ++
        List.replicate (n - done.length - l.length) none,
        done.length + l.length) := by
  intro l
  induction l with
  | nil => intro done hle; simp
  | cons x t ih =>
    intro done hle
    rw [List.foldl_cons]
    have hfill : ((done.map some : List (Option (ℕ × ℚ))) ++
        List.replicate (n - done.length) none, done.length).2 < n := by
      simp only [List.length_cons] at hle
      omega
    have hm : 1 ≤ n - done.length := by
      simp only [List.length_cons] at hle
      omega
    have hf : firstNoneIdx ((done.map some : List (Option (ℕ × ℚ))) ++
        List.replicate (n - done.length) none) = some done.length :=
      firstNoneIdx_map_some_append done _ hm
    rw [bpqInsert_eq_fill hfill hf]
    have hset : ((done.map some : List (Option (ℕ × ℚ))) ++
        List.replicate (n - done.length) none).set done.length (some x) =
        (done ++ [x]).map some ++ List.replicate (n - done.length - 1) none := by
      rw [List.set_append_right _ _ (by simp)]
      simp only [List.length_map, Nat.sub_self]
      cases hnk : n - done.length with
      | zero => omega
      | succ k =>
        rw [List.replicate_succ]
        simp
    rw [hset]
    have harith : n - done.length - 1 = n - (done ++ [x]).length := by
      simp only [List.length_append, List.length_cons, List.length_nil]
      omega
    have hlen1 : done.length + 1 = (done ++ [x]).length := by simp
    rw [harith, hlen1]
    have hrec := ih (done ++ [x]) (by simp only [List.length_append, List.length_cons,
      List.length_nil, List.length_cons] at hle ⊢; omega)
    rw [hrec]
    have e1 : n - (done ++ [x]).length - t.length = n - done.length - (x :: t).length := by
      simp only [List.length_append, List.length_cons, List.length_nil]
      omega
    have e2 : (done ++ [x]).length + t.length = done.length + (x :: t).length := by
      simp only [List.length_append, List.length_cons, List.length_nil]
      omega
    rw [e1, e2, List.append_assoc]
    simp

/-! ### PriorityHeap invariants -/

theorem optMassSum_cons (o : Option (ℕ × ℚ)) (t : List (Option (ℕ × ℚ))) :
    optMassSum (o :: t) = optMass o + optMassSum t := by
  cases o <;> simp [optMassSum, optMass]

theorem getD_some_lt {l : List (Option α)} {i : ℕ} {y : α}
    (h : l.getD i none = some y) : i < l.length := by
  by_contra hge
  push_neg at hge
  rw [List.getD_eq_getElem?_getD, List.getElem?_eq_none hge] at h
  simp at h

theorem optMassSum_set (l : List (Option (ℕ × ℚ))) (i : ℕ)
    (x : Option (ℕ × ℚ)) (h : i < l.length) :
    optMassSum (l.set i x) = optMassSum l - optMass (l.getD i none) + optMass x := by
  induction l generalizing i with
  | nil => simp at h
  | cons o t ih =>
    cases i with
    | zero =>
      rw [List.set_cons_zero, optMassSum_cons, optMassSum_cons]
      have : (o :: t).getD 0 none = o := rfl
      rw [this]
      ring
    | succ m =>
      rw [List.set_cons_succ, optMassSum_cons, optMassSum_cons,
        ih m (by simpa using h)]
      have : (o :: t).getD (m + 1) none = t.getD m none := rfl
      rw [this]
      ring

theorem listSwap_length (l : List (Option α)) (i j : ℕ) :
    (listSwap l i j).length = l.length := by
  simp [listSwap]

theorem optMassSum_swap (l : List (Option (ℕ × ℚ))) (i j : ℕ)
    (hi : i < l.length) (hj : j < l.length) :
    optMassSum (listSwap l i j) = optMassSum l := by
  rw [listSwap, optMassSum_set _ j _ (by simpa using hj),
    optMassSum_set _ i _ hi]
  have hgd : (l.set i (l.getD j none)).getD j none = l.getD j none := by
    by_cases hij : i = j
    · subst hij
      rw [getD_set_self _ _ _ hi]
    · rw [getD_set_other _ _ _ _ hij]
  rw [hgd]
  ring

theorem phParent_lt (c : ℕ) (h : c ≠ 0) : phParent c < c := by
  rw [phParent]
  by_cases hp : c % 2 = 0
  · rw [if_pos hp]
    omega
  · rw [if_neg hp]
    omega

theorem phUpkeepAux_length (f : α → ℚ) (fuel : ℕ) :
    ∀ (buf : List (Option α)) (c : ℕ),
      (phUpkeepAux f fuel buf c).length = buf.length := by
  induction fuel with
  | zero => intro buf c; rfl
  | succ fuel ih =>
    intro buf c
    rw [phUpkeepAux]
    by_cases hc : c = 0
    · rw [if_pos hc]
    · rw [if_neg hc]
      cases hp : buf.getD (phParent c) none with
      | none => simp only [hp]
      | some pv =>
        cases hcc : buf.getD c none with
        | none => simp only [hp, hcc]
        | some cv =>
          by_cases hlt : f pv < f cv
          · simp only [hp, hcc, if_pos hlt]
            rw [ih, listSwap_length]
          · simp only [hp, hcc, if_neg hlt]

theorem phUpkeepAux_massSum (f : ℕ × ℚ → ℚ) (fuel : ℕ) :
    ∀ (buf : List (Option (ℕ × ℚ))) (c : ℕ),
      optMassSum (phUpkeepAux f fuel buf c) = optMassSum buf := by
  induction fuel with
  | zero => intro buf c; rfl
  | succ fuel ih =>
    intro buf c
    rw [phUpkeepAux]
    by_cases hc : c = 0
    · rw [if_pos hc]
    · rw [if_neg hc]
      cases hp : buf.getD (phParent c) none with
      | none => simp only [hp]
      | some pv =>
        cases hcc : buf.getD c none with
        | none => simp only [hp, hcc]
        | some cv =>
          by_cases hlt : f pv < f cv
          · simp only [hp, hcc, if_pos hlt]
            rw [ih,
              optMassSum_swap _ _ _ (getD_some_lt hp) (getD_some_lt hcc)]
          · simp only [hp, hcc, if_neg hlt]

theorem ilog2Fuel_le_half (fuel : ℕ) : ∀ n : ℕ, ilog2Fuel fuel n ≤ n / 2 := by
  induction fuel with
  | zero => intro n; simp [ilog2Fuel]
  | succ fuel ih =>
    intro n
    rw [ilog2Fuel]
    by_cases hn : 2 ≤ n
    · rw [if_pos hn]
      have := ih (n / 2)
      omega
    · rw [if_neg hn]
      omega

theorem ilog2_lt (n : ℕ) (h : 1 ≤ n) : ilog2 n < n := by
  have := ilog2Fuel_le_half n n
  rw [ilog2]
  omega

theorem phMinIdx_lt_length (f : α → ℚ) (l : List (Option α)) (h : l ≠ []) :
    phMinIdx f l < l.length := by
  rw [phMinIdx]
  cases he : l.enum.map fun p => (p.1, phKey f p.2) with
  | nil =>
    exfalso
    apply h
    cases l with
    | nil => rfl
    | cons a t => simp [List.enum, List.enumFrom] at he
  | cons e rest =>
    show (rest.foldl (fun acc q => if acc.2 > q.2 then q else acc) e).1 < l.length
    have hmem := foldl_pick_mem rest e (fun acc q => if acc.2 > q.2 then q else acc)
      (fun a b => by by_cases hc : a.2 > b.2 <;> simp [hc])
    have hmem' : rest.foldl (fun acc q => if acc.2 > q.2 then q else acc) e ∈
        l.enum.map fun p => (p.1, phKey f p.2) := by
      rw [he]
      exact hmem
    obtain ⟨p, hp, hep⟩ := List.mem_map.1 hmem'
    have := List.mem_enum_iff_getElem?.1 hp
    have hlt : p.1 < l.length := (List.getElem?_eq_some_iff.1 this).1
    rw [← hep]
    exact hlt

theorem firstNoneIdx_none_all_some {l : List (Option α)}
    (h : firstNoneIdx l = none) :
    ∀ i, i < l.length → ∃ y, l.getD i none = some y := by
  intro i hi
  rw [firstNoneIdx, List.findIdx?_eq_none_iff] at h
  have hmem := h l[i] (List.getElem_mem hi)
  cases hli : l[i] with
  | none => rw [hli] at hmem; simp at hmem
  | some y =>
    exact ⟨y, by simp [List.getD_eq_getElem?_getD, List.getElem?_eq_getElem hi, hli]⟩

theorem phUpkeep_def (f : α → ℚ) (buf : List (Option α)) (c : ℕ) :
    phUpkeep f buf c = phUpkeepAux f c buf c := rfl

theorem phInsert_eq_fill (f : α → ℚ) (buf : List (Option α)) (v : α) (i : ℕ)
    (hf : firstNoneIdx buf = some i) :
    phInsertByKey f buf v = (phUpkeep f (buf.set i (some v)) i, none) := by
  rw [phInsertByKey, hf]

theorem phInsert_eq_full (f : α → ℚ) (buf : List (Option α)) (v : α)
    (hf : firstNoneIdx buf = none) :
    phInsertByKey f buf v =
      (phUpkeep f
        (buf.set (ilog2 buf.length + phMinIdx f (buf.drop (ilog2 buf.length)))
          (some v))
        (ilog2 buf.length + phMinIdx f (buf.drop (ilog2 buf.length))),
       buf.getD (ilog2 buf.length + phMinIdx f (buf.drop (ilog2 buf.length)))
         none) := by
  rw [phInsertByKey, hf]

/-- PriorityHeap insertion conserves total mass: the buffer's mass plus the
evicted mass equals the old mass plus the inserted mass; the buffer length is
unchanged. -/
theorem ph_insert_mass (f : ℕ × ℚ → ℚ) (buf : List (Option (ℕ × ℚ)))
    (v : ℕ × ℚ) (hlen : 1 ≤ buf.length) :
    optMassSum (phInsertByKey f buf v).1 + optMass (phInsertByKey f buf v).2 =
      optMassSum buf + v.2 ∧
    (phInsertByKey f buf v).1.length = buf.length := by
  cases hf : firstNoneIdx buf with
  | some i =>
    obtain ⟨hi, hnone⟩ := firstNoneIdx_spec hf
    rw [phInsert_eq_fill f buf v i hf]
    constructor
    · rw [phUpkeep_def, phUpkeepAux_massSum, optMassSum_set _ _ _ hi, hnone]
      simp [optMass]
    · rw [phUpkeep_def, phUpkeepAux_length]
      simp
  | none =>
    have hne : buf ≠ [] := by
      intro hempty
      rw [hempty] at hlen
      simp at hlen
    have hdroplen : (buf.drop (ilog2 buf.length)).length =
        buf.length - ilog2 buf.length := by simp
    have hdropne : buf.drop (ilog2 buf.length) ≠ [] := by
      intro hempty
      have := congrArg List.length hempty
      rw [hdroplen] at this
      have h2 := ilog2_lt buf.length hlen
      simp at this
      omega
    have hidx : ilog2 buf.length + phMinIdx f (buf.drop (ilog2 buf.length)) <
        buf.length := by
      have := phMinIdx_lt_length f (buf.drop (ilog2 buf.length)) hdropne
      rw [hdroplen] at this
      omega
    obtain ⟨mem, hmem⟩ := firstNoneIdx_none_all_some hf _ hidx
    rw [phInsert_eq_full f buf v hf]
    constructor
    · rw [phUpkeep_def, phUpkeepAux_massSum, optMassSum_set _ _ _ hidx, hmem]
      simp [optMass]
      ring
    · rw [phUpkeep_def, phUpkeepAux_length]
      simp

theorem summarizeStep_mass (st : List (Option (ℕ × ℚ)) × (ℕ × ℚ))
    (e : ℕ × ℚ) (hlen : 1 ≤ st.1.length) :
    optMassSum (summarizeStep st e).1 + (summarizeStep st e).2.2 =
      optMassSum st.1 + st.2.2 + e.2 ∧
    (summarizeStep st e).1.length = st.1.length := by
  obtain ⟨hmass, hl⟩ := ph_insert_mass Prod.snd st.1 e hlen
  rw [summarizeStep]
  cases hev : (phInsertByKey Prod.snd st.1 e).2 with
  | some ev =>
    rw [hev] at hmass
    simp only [optMass, Option.elim] at hmass
    constructor
    · simp only []
      linarith
    · exact hl
  | none =>
    rw [hev] at hmass
    simp only [optMass, Option.elim] at hmass
    constructor
    · simp only []
      linarith
    · exact hl

theorem summarize_fold_mass (l : List (ℕ × ℚ)) :
    ∀ st : List (Option (ℕ × ℚ)) × (ℕ × ℚ), 1 ≤ st.1.length →
      optMassSum (l.foldl summarizeStep st).1 + (l.foldl summarizeStep st).2.2 =
        optMassSum st.1 + st.2.2 + massSum l ∧
      (l.foldl summarizeStep st).1.length = st.1.length := by
  induction l with
  | nil => intro st hlen; simp [massSum]
  | cons x t ih =>
    intro st hlen
    rw [List.foldl_cons]
    obtain ⟨hm, hl⟩ := summarizeStep_mass st x hlen
    obtain ⟨hm', hl'⟩ := ih (summarizeStep st x) (by omega)
    constructor
    · rw [hm', hm, massSum_cons]
      ring
    · rw [hl', hl]

theorem optMassSum_replicate_none (n : ℕ) :
    optMassSum (List.replicate n (none : Option (ℕ × ℚ))) = 0 := by
  induction n with
  | zero => simp [optMassSum]
  | succ m ihm =>
    rw [List.replicate_succ, optMassSum_cons, ihm]
    simp [optMass]

theorem massSum_map_getD (l : List (Option (ℕ × ℚ))) :
    massSum (l.map fun o => o.getD (uEmpty, 0)) = optMassSum l := by
  induction l with
  | nil => simp [massSum, optMassSum]
  | cons o t ih =>
    rw [List.map_cons, massSum_cons, optMassSum_cons, ih]
    cases o <;> simp [optMass, uEmpty]

theorem massSum_set (l : List (ℕ × ℚ)) (i : ℕ) (x : ℕ × ℚ)
    (h : i < l.length) :
    massSum (l.set i x) = massSum l - (l.getD i (uEmpty, 0)).2 + x.2 := by
  induction l generalizing i with
  | nil => simp at h
  | cons e t ih =>
    cases i with
    | zero =>
      rw [List.set_cons_zero, massSum_cons, massSum_cons]
      have : (e :: t).getD 0 (uEmpty, 0) = e := rfl
      rw [this]
      ring
    | succ m =>
      rw [List.set_cons_succ, massSum_cons, massSum_cons, ih m (by simpa using h)]
      have : (e :: t).getD (m + 1) (uEmpty, 0) = t.getD m (uEmpty, 0) := rfl
      rw [this]
      ring

/-- Summarize conserves the total mass exactly (capacity at least 1). -/
theorem summarize_mass (n : ℕ) (bba : List (ℕ × ℚ)) (hn : 1 ≤ n) :
    massSum (summarizeApprox n bba) = massSum bba := by
  obtain ⟨hm, hl⟩ := summarize_fold_mass bba
    (List.replicate n none, (uEmpty, 0)) (by simpa using hn)
  set st := bba.foldl summarizeStep (List.replicate n none, (uEmpty, 0)) with hst
  rw [optMassSum_replicate_none] at hm
  simp only [List.length_replicate] at hl
  show massSum ((st.1.map fun o => o.getD (uEmpty, 0)).set (n - 1)
    (uCup st.2.1 ((st.1.map fun o => o.getD (uEmpty, 0)).getD (n - 1) (uEmpty, 0)).1,
      st.2.2 + ((st.1.map fun o => o.getD (uEmpty, 0)).getD (n - 1) (uEmpty, 0)).2)) =
    massSum bba
  have hmaplen : (st.1.map fun o => o.getD (uEmpty, 0)).length = n := by
    rw [List.length_map, hl]
  rw [massSum_set _ _ _ (by rw [hmaplen]; omega), massSum_map_getD]
  simp only []
  have : (0 : ℚ) + (uEmpty, (0 : ℚ)).2 + massSum bba = massSum bba := by
    simp
  rw [← this] at hm ⊢
  linarith [hm]

theorem filterMap_id_map_some (l : List (ℕ × ℚ)) :
    (l.map some).filterMap id = l := by
  rw [List.filterMap_map]
  simp [List.filterMap_some]

/-- KX returns a sum-1 bounded input unchanged, in input order, padded with
`(EMPTY, 0.0)`. -/
theorem kx_identity_of_bounded (n : ℕ) (bba : List (ℕ × ℚ))
    (hlen : bba.length ≤ n) (hsum : massSum bba = 1) :
    kxApprox n bba = bba ++ List.replicate (n - bba.length) (uEmpty, 0) := by
  have hrun := bpq_fill_run n bba [] (by simpa using hlen)
  simp only [List.length_nil, List.map_nil, List.nil_append, Nat.sub_zero,
    Nat.zero_add, List.length_cons] at hrun
  show ((((bba.foldl (bpqInsertByKey n) (List.replicate n none, 0)).1.filterMap id).map
      fun e => (e.1, e.2 /
        (((bba.foldl (bpqInsertByKey n) (List.replicate n none, 0)).1.filterMap id).map
          Prod.snd).sum)) ++
    List.replicate
      (n - ((bba.foldl (bpqInsertByKey n) (List.replicate n none, 0)).1.filterMap id).length)
      (uEmpty, 0)) = bba ++ List.replicate (n - bba.length) (uEmpty, 0)
  rw [hrun]
  have hret : ((bba.map some : List (Option (ℕ × ℚ))) ++
      List.replicate (n - bba.length) none).filterMap id = bba := by
    rw [List.filterMap_append, filterMap_id_map_some]
    simp [List.filterMap_replicate]
  rw [hret]
  have hbot : (bba.map Prod.snd).sum = 1 := hsum
  rw [hbot]
  have hmap : (bba.map fun e => (e.1, e.2 / (1 : ℚ))) = bba := by
    rw [List.map_congr_left (g := id) fun e _ => by rw [div_one]; rfl]
    exact List.map_id bba
  rw [hmap]

/-- Concrete evaluation of KX on a single element of mass 2: the retained mass
is rescaled to 1 (shared by the C4 and C8 counterexamples). -/
theorem kx_single_two_eval : kxApprox 1 [((1 : ℕ), (2 : ℚ))] = [(1, 1)] := by
  norm_num [kxApprox, bpqInsertByKey, firstNoneIdx, bpqMinIdx, bpqKey,
    List.filterMap_cons, List.replicate, List.findIdx?_cons]

/-! ### Linear probing: probe characterization -/

theorem slotAt_eq (buf : List (Option (ℕ × ℚ))) (i : ℕ) :
    slotAt buf i = buf.getD i none := rfl

theorem slotAt_some_lt {buf : List (Option (ℕ × ℚ))} {i : ℕ} {kv : ℕ × ℚ}
    (h : slotAt buf i = some kv) : i < buf.length :=
  getD_some_lt h

theorem probeIdx_lt (len start j : ℕ) (h : 0 < len) : probeIdx len start j < len :=
  Nat.mod_lt _ h

theorem probeIdx_inj {len start j₁ j₂ : ℕ} (h₁ : j₁ < len) (h₂ : j₂ < len)
    (h : probeIdx len start j₁ = probeIdx len start j₂) : j₁ = j₂ := by
  have hm : j₁ ≡ j₂ [MOD len] := Nat.ModEq.add_left_cancel' start h
  have := hm
  rw [Nat.ModEq, Nat.mod_eq_of_lt h₁, Nat.mod_eq_of_lt h₂] at this
  exact this

theorem probeIdx_surj (len start s : ℕ) (h : s < len) :
    ∃ j < len, probeIdx len start j = s := by
  have hlen : 0 < len := by omega
  have ha : start % len < len := Nat.mod_lt start hlen
  refine ⟨(s + len - start % len) % len, Nat.mod_lt _ hlen, ?_⟩
  rw [probeIdx]
  by_cases has : start % len ≤ s
  · have hj : (s + len - start % len) % len = s - start % len := by
      have he : s + len - start % len = (s - start % len) + len := by omega
      rw [he, Nat.add_mod_right]
      exact Nat.mod_eq_of_lt (by omega)
    rw [hj, Nat.add_mod, Nat.mod_eq_of_lt (show s - start % len < len by omega)]
    have hsum : start % len + (s - start % len) = s := by omega
    rw [hsum, Nat.mod_eq_of_lt h]
  · have hj : (s + len - start % len) % len = s + len - start % len :=
      Nat.mod_eq_of_lt (by omega)
    rw [hj, Nat.add_mod,
      Nat.mod_eq_of_lt (show s + len - start % len < len by omega)]
    have hsum : start % len + (s + len - start % len) = s + len := by omega
    rw [hsum, Nat.add_mod_right, Nat.mod_eq_of_lt h]

theorem naFindAux_found {buf : List (Option (ℕ × ℚ))} {start k : ℕ}
    {fuel j i : ℕ} (h : naFindAux buf start k fuel j = .found i) :
    ∃ t, j ≤ t ∧ t < j + fuel ∧ probeIdx buf.length start t = i ∧
      (∃ v, slotAt buf i = some (k, v)) ∧
      ∀ u, j ≤ u → u < t → contAt buf start k u := by
  induction fuel generalizing j with
  | zero => exact absurd h (by rw [naFindAux]; simp)
  | succ fuel ih =>
    rw [naFindAux] at h
    cases hs : slotAt buf ((start + j) % buf.length) with
    | none =>
      simp only [hs] at h
      exact ProbeRes.noConfusion h
    | some kv =>
      simp only [hs] at h
      by_cases hk : kv.1 = k
      · rw [if_pos hk] at h
        have hi : (start + j) % buf.length = i := by
          injection h
        refine ⟨j, le_refl j, by omega, hi, ⟨kv.2, ?_⟩, fun u hu1 hu2 => by omega⟩
        rw [← hi]
        rw [hs]
        rw [show (k, kv.2) = kv from by rw [← hk]]
      · rw [if_neg hk] at h
        obtain ⟨t, ht1, ht2, ht3, ht4, ht5⟩ := ih h
        refine ⟨t, by omega, by omega, ht3, ht4, ?_⟩
        intro u hu1 hu2
        by_cases hu : u = j
        · subst hu
          exact ⟨kv, hs, hk⟩
        · exact ht5 u (by omega) hu2

theorem naFindAux_free {buf : List (Option (ℕ × ℚ))} {start k : ℕ}
    {fuel j i : ℕ} (h : naFindAux buf start k fuel j = .freeAt i) :
    ∃ t, j ≤ t ∧ t < j + fuel ∧ probeIdx buf.length start t = i ∧
      slotAt buf i = none ∧
      ∀ u, j ≤ u → u < t → contAt buf start k u := by
  induction fuel generalizing j with
  | zero => exact absurd h (by rw [naFindAux]; simp)
  | succ fuel ih =>
    rw [naFindAux] at h
    cases hs : slotAt buf ((start + j) % buf.length) with
    | none =>
      simp only [hs] at h
      have hi : (start + j) % buf.length = i := by
        injection h
      refine ⟨j, le_refl j, by omega, hi, by rw [← hi]; exact hs,
        fun u hu1 hu2 => by omega⟩
    | some kv =>
      simp only [hs] at h
      by_cases hk : kv.1 = k
      · rw [if_pos hk] at h
        exact absurd h (by simp)
      · rw [if_neg hk] at h
        obtain ⟨t, ht1, ht2, ht3, ht4, ht5⟩ := ih h
        refine ⟨t, by omega, by omega, ht3, ht4, ?_⟩
        intro u hu1 hu2
        by_cases hu : u = j
        · subst hu
          exact ⟨kv, hs, hk⟩
        · exact ht5 u (by omega) hu2

theorem naFindAux_exhausted {buf : List (Option (ℕ × ℚ))} {start k : ℕ}
    {fuel j : ℕ} (h : naFindAux buf start k fuel j = .exhausted) :
    ∀ t, j ≤ t → t < j + fuel → contAt buf start k t := by
  induction fuel generalizing j with
  | zero => intro t h1 h2; omega
  | succ fuel ih =>
    intro t h1 h2
    rw [naFindAux] at h
    cases hs : slotAt buf ((start + j) % buf.length) with
    | none =>
      simp only [hs] at h
      exact ProbeRes.noConfusion h
    | some kv =>
      simp only [hs] at h
      by_cases hk : kv.1 = k
      · rw [if_pos hk] at h
        exact absurd h (by simp)
      · rw [if_neg hk] at h
        by_cases ht : t = j
        · subst ht
          exact ⟨kv, hs, hk⟩
        · exact ih h t (by omega) (by omega)

/-- A probe over the whole table cannot exhaust while a free slot exists. -/
theorem naFind_not_exhausted {buf : List (Option (ℕ × ℚ))} {start k : ℕ}
    (hfree : countSome buf < buf.length) :
    naFind buf start k ≠ .exhausted := by
  intro h
  obtain ⟨s, hs, hnone⟩ := exists_none_of_countSome_lt buf hfree
  obtain ⟨j, hj, hidx⟩ := probeIdx_surj buf.length start s hs
  have := naFindAux_exhausted h j (by omega) (by omega)
  obtain ⟨kv, hkv, _⟩ := this
  rw [hidx] at hkv
  rw [slotAt_eq, hnone] at hkv
  simp at hkv

/-- A stored key with an occupied probe path is found by the probe, at its
slot. -/
theorem naFind_found_of_stored {buf : List (Option (ℕ × ℚ))} {start k s : ℕ}
    {v : ℚ} (hu : wfUniq buf) (hs : slotAt buf s = some (k, v))
    (hp : pathAt buf start s) : naFind buf start k = .found s := by
  obtain ⟨j0, hj0, hidx, hocc⟩ := hp
  have H : ∀ d jr fuel, jr + d = j0 → fuel + jr = buf.length →
      naFindAux buf start k fuel jr = .found s := by
    intro d
    induction d with
    | zero =>
      intro jr fuel hjr hfuel
      have hjr0 : jr = j0 := by omega
      subst hjr0
      cases fuel with
      | zero => omega
      | succ f =>
        rw [naFindAux]
        rw [show (start + jr) % buf.length = s from hidx, hs]
        simp
    | succ d ih =>
      intro jr fuel hjr hfuel
      have hjrlt : jr < j0 := by omega
      have hsome := hocc jr hjrlt
      cases hkv : slotAt buf (probeIdx buf.length start jr) with
      | none => rw [hkv] at hsome; simp at hsome
      | some kv =>
        have hk : kv.1 ≠ k := by
          intro hkk
          have heq : probeIdx buf.length start jr = s :=
            hu _ _ kv (k, v) hkv hs hkk
          have : jr = j0 := probeIdx_inj (by omega) hj0 (by rw [heq, hidx])
          omega
        cases fuel with
        | zero =>
          have := slotAt_some_lt hkv
          omega
        | succ f =>
          rw [naFindAux]
          simp only [show slotAt buf ((start + jr) % buf.length) = some kv from hkv]
          rw [if_neg hk]
          exact ih (jr + 1) f (by omega) (by omega)
  exact H j0 0 buf.length (by omega) (by omega)

theorem naGet_found_some {off : ℕ → ℕ} {buf : List (Option (ℕ × ℚ))}
    {k i : ℕ} {kv : ℕ × ℚ} (hf : naFind buf (off k) k = .found i)
    (hs : slotAt buf i = some kv) : naGet off buf k = some kv.2 := by
  rw [naGet, hf]
  show (match slotAt buf i with
    | some kv => some kv.2
    | none => none) = some kv.2
  rw [hs]

theorem naGet_eq_free {off : ℕ → ℕ} {buf : List (Option (ℕ × ℚ))} {k i : ℕ}
    (hf : naFind buf (off k) k = .freeAt i) : naGet off buf k = none := by
  rw [naGet, hf]

theorem naGet_eq_exhausted {off : ℕ → ℕ} {buf : List (Option (ℕ × ℚ))} {k : ℕ}
    (hf : naFind buf (off k) k = .exhausted) : naGet off buf k = none := by
  rw [naGet, hf]

theorem naGet_stored {off : ℕ → ℕ} {buf : List (Option (ℕ × ℚ))} {k s : ℕ}
    {v : ℚ} (hu : wfUniq buf) (hs : slotAt buf s = some (k, v))
    (hp : pathAt buf (off k) s) : naGet off buf k = some v :=
  naGet_found_some (naFind_found_of_stored hu hs hp) hs

theorem naGet_absent {off : ℕ → ℕ} {buf : List (Option (ℕ × ℚ))} {k : ℕ}
    (habs : ∀ s kv, slotAt buf s = some kv → kv.1 ≠ k) :
    naGet off buf k = none := by
  cases hf : naFind buf (off k) k with
  | found i =>
    exfalso
    obtain ⟨t, _, _, _, ⟨v, hv⟩, _⟩ := naFindAux_found hf
    exact habs i (k, v) hv rfl
  | freeAt i => exact naGet_eq_free hf
  | exhausted => exact naGet_eq_exhausted hf

theorem naInsert_eq_found {off : ℕ → ℕ} {buf : List (Option (ℕ × ℚ))}
    {k i : ℕ} {v : ℚ} {kv : ℕ × ℚ} (hf : naFind buf (off k) k = .found i)
    (hs : slotAt buf i = some kv) :
    naInsert off buf k v = some (buf.set i (some (kv.1, kv.2 + v))) := by
  rw [naInsert, hf]
  show (match slotAt buf i with
    | some kv => some (buf.set i (some (kv.1, kv.2 + v)))
    | none => none) = some (buf.set i (some (kv.1, kv.2 + v)))
  rw [hs]

theorem naInsert_eq_free {off : ℕ → ℕ} {buf : List (Option (ℕ × ℚ))}
    {k i : ℕ} {v : ℚ} (hf : naFind buf (off k) k = .freeAt i) :
    naInsert off buf k v = some (buf.set i (some (k, v))) := by
  rw [naInsert, hf]

theorem pathAt_mono {buf buf' : List (Option (ℕ × ℚ))}
    (hlen : buf'.length = buf.length)
    (hmono : ∀ j, (slotAt buf j).isSome = true → (slotAt buf' j).isSome = true)
    {start s : ℕ} (hp : pathAt buf start s) : pathAt buf' start s := by
  obtain ⟨j, hj, hidx, hocc⟩ := hp
  refine ⟨j, by rw [hlen]; exact hj, by rw [hlen]; exact hidx, ?_⟩
  intro t ht
  rw [hlen]
  exact hmono _ (hocc t ht)

theorem histSum_append_same (k : ℕ) (hist : List (ℕ × ℚ)) (p : ℕ × ℚ)
    (hp : p.1 = k) : histSum k (hist ++ [p]) = histSum k hist + p.2 := by
  simp [histSum, List.filter_append, hp]

theorem histSum_append_other (k : ℕ) (hist : List (ℕ × ℚ)) (p : ℕ × ℚ)
    (hp : p.1 ≠ k) : histSum k (hist ++ [p]) = histSum k hist := by
  simp [histSum, List.filter_append, hp]

theorem histMem_append (k : ℕ) (hist : List (ℕ × ℚ)) (p : ℕ × ℚ) :
    histMem k (hist ++ [p]) = (histMem k hist || (p.1 == k)) := by
  simp [histMem, List.any_append]

theorem histMem_append_self (k : ℕ) (hist : List (ℕ × ℚ)) (v : ℚ) :
    histMem k (hist ++ [(k, v)]) = true := by
  rw [histMem_append]
  simp

theorem histMem_append_mono {k : ℕ} {hist : List (ℕ × ℚ)} (p : ℕ × ℚ)
    (h : histMem k hist = true) : histMem k (hist ++ [p]) = true := by
  rw [histMem_append, h]
  rfl

theorem histMem_append_elim {k : ℕ} {hist : List (ℕ × ℚ)} {p : ℕ × ℚ}
    (h : histMem k (hist ++ [p]) = true) :
    histMem k hist = true ∨ p.1 = k := by
  rw [histMem_append] at h
  rcases Bool.or_eq_true_iff.1 h with h' | h'
  · exact Or.inl h'
  · exact Or.inr (by simpa using h')

theorem histSum_eq_zero_of_not_mem {k : ℕ} {hist : List (ℕ × ℚ)}
    (h : histMem k hist = false) : histSum k hist = 0 := by
  induction hist with
  | nil => simp [histSum]
  | cons p t ih =>
    simp only [histMem, List.any_cons, Bool.or_eq_false_iff] at h
    simp only [histSum, List.filter_cons]
    rw [h.1]
    simp only [Bool.false_eq_true, if_false]
    exact ih (by simp [histMem, h.2])

/-- The central step lemma: under the table invariant and spare capacity, the
probing insert succeeds and re-establishes the invariant for the extended
history. -/
theorem naInsert_TInv {off : ℕ → ℕ} {hist : List (ℕ × ℚ)}
    {buf : List (Option (ℕ × ℚ))} {k : ℕ} {v : ℚ}
    (hinv : TInv off hist buf) (hcap : countSome buf < buf.length) :
    ∃ buf', naInsert off buf k v = some buf' ∧
      TInv off (hist ++ [(k, v)]) buf' ∧ buf'.length = buf.length := by
  obtain ⟨hu, hpth, hval, hkeys, hcnt⟩ := hinv
  have hlenpos : 0 < buf.length := by omega
  cases hf : naFind buf (off k) k with
  | exhausted => exact absurd hf (naFind_not_exhausted hcap)
  | found i =>
    obtain ⟨t, _, _, hti, ⟨v0, hslot⟩, _⟩ := naFindAux_found hf
    have hilt : i < buf.length := slotAt_some_lt hslot
    refine ⟨buf.set i (some (k, v0 + v)), by simpa using naInsert_eq_found hf hslot,
      ?_, by simp⟩
    have hsel : ∀ j, slotAt (buf.set i (some (k, v0 + v))) j =
        if j = i then some (k, v0 + v) else slotAt buf j := by
      intro j
      by_cases hj : j = i
      · subst hj
        rw [if_pos rfl]
        exact getD_set_self _ _ _ hilt
      · rw [if_neg hj]
        exact getD_set_other _ _ _ _ fun hh => hj hh.symm
    have hother : ∀ j kv, j ≠ i → slotAt buf j = some kv → kv.1 ≠ k := by
      intro j kv hj hkv hkk
      exact hj (hu j i kv (k, v0) hkv hslot (by rw [hkk]))
    have hsomeiff : ∀ j, (slotAt (buf.set i (some (k, v0 + v))) j).isSome =
        (slotAt buf j).isSome := by
      intro j
      rw [hsel j]
      by_cases hj : j = i
      · rw [if_pos hj, hj, hslot]
        rfl
      · rw [if_neg hj]
    have hlen' : (buf.set i (some (k, v0 + v))).length = buf.length := by simp
    refine ⟨?_, ?_, ?_, ?_, ?_⟩
    · intro j1 j2 kv1 kv2 h1 h2 hkk
      rw [hsel j1] at h1
      rw [hsel j2] at h2
      by_cases hj1 : j1 = i <;> by_cases hj2 : j2 = i
      · rw [hj1, hj2]
      · rw [if_pos hj1] at h1
        rw [if_neg hj2] at h2
        exfalso
        have hk1 : kv1.1 = k := by rw [← Option.some.inj h1]
        exact hother j2 kv2 hj2 h2 (by rw [← hkk, hk1])
      · rw [if_neg hj1] at h1
        rw [if_pos hj2] at h2
        exfalso
        have hk2 : kv2.1 = k := by rw [← Option.some.inj h2]
        exact hother j1 kv1 hj1 h1 (by rw [hkk, hk2])
      · rw [if_neg hj1] at h1
        rw [if_neg hj2] at h2
        exact hu j1 j2 kv1 kv2 h1 h2 hkk
    · intro j kv hkv
      rw [hsel j] at hkv
      by_cases hj : j = i
      · rw [if_pos hj] at hkv
        have hk1 : kv.1 = k := by rw [← Option.some.inj hkv]
        rw [hk1, hj]
        exact pathAt_mono hlen' (fun j hj => by rw [hsomeiff]; exact hj)
          (hpth i (k, v0) hslot)
      · rw [if_neg hj] at hkv
        exact pathAt_mono hlen' (fun j hj => by rw [hsomeiff]; exact hj)
          (hpth j kv hkv)
    · intro j kv hkv
      rw [hsel j] at hkv
      by_cases hj : j = i
      · rw [if_pos hj] at hkv
        have hkveq : kv = (k, v0 + v) := (Option.some.inj hkv).symm
        rw [hkveq]
        show v0 + v = histSum k (hist ++ [(k, v)])
        have hv0 : v0 = histSum k hist := hval i (k, v0) hslot
        rw [histSum_append_same k hist (k, v) rfl, ← hv0]
      · rw [if_neg hj] at hkv
        have hne := hother j kv hj hkv
        rw [histSum_append_other kv.1 hist (k, v) (Ne.symm hne)]
        exact hval j kv hkv
    · intro k'
      constructor
      · rintro ⟨j, w, hjw⟩
        rw [hsel j] at hjw
        by_cases hj : j = i
        · rw [if_pos hj] at hjw
          have hk' : k' = k := (congrArg Prod.fst (Option.some.inj hjw)).symm
          rw [hk']
          exact histMem_append_self k hist v
        · rw [if_neg hj] at hjw
          exact histMem_append_mono _ ((hkeys k').1 ⟨j, w, hjw⟩)
      · intro hmem
        rcases histMem_append_elim hmem with hmem' | hk'
        · obtain ⟨s, w, hsw⟩ := (hkeys k').2 hmem'
          by_cases hs : s = i
          · rw [hs, hslot] at hsw
            have hk' : k' = k := (congrArg Prod.fst (Option.some.inj hsw)).symm
            refine ⟨i, v0 + v, ?_⟩
            rw [hsel i, if_pos rfl, hk']
          · exact ⟨s, w, by rw [hsel s, if_neg hs]; exact hsw⟩
        · have hk : k' = k := hk'.symm ▸ rfl
          rw [hk]
          exact ⟨i, v0 + v, by rw [hsel i, if_pos rfl]⟩
    · rw [countSome_set_of_some buf i _ (k, v0) hslot]
      calc countSome buf ≤ hist.length := hcnt
        _ ≤ (hist ++ [(k, v)]).length := by simp
  | freeAt i =>
    obtain ⟨t, _, htlt, hti, hslot, hcont⟩ := naFindAux_free hf
    have hilt : i < buf.length := by
      rw [← hti]
      exact probeIdx_lt _ _ _ hlenpos
    have hnotstored : ∀ s kv, slotAt buf s = some kv → kv.1 ≠ k := by
      intro s kv hkv hkk
      have hkv' : slotAt buf s = some (k, kv.2) := by
        rw [hkv]
        rw [show (k, kv.2) = kv from by rw [← hkk]]
      have hfound := naFind_found_of_stored hu hkv'
        (by have := hpth s kv hkv; rw [hkk] at this; exact this)
      rw [hf] at hfound
      exact ProbeRes.noConfusion hfound
    refine ⟨buf.set i (some (k, v)), naInsert_eq_free hf, ?_, by simp⟩
    have hsel : ∀ j, slotAt (buf.set i (some (k, v))) j =
        if j = i then some (k, v) else slotAt buf j := by
      intro j
      by_cases hj : j = i
      · subst hj
        rw [if_pos rfl]
        exact getD_set_self _ _ _ hilt
      · rw [if_neg hj]
        exact getD_set_other _ _ _ _ fun hh => hj hh.symm
    have hmono : ∀ j, (slotAt buf j).isSome = true →
        (slotAt (buf.set i (some (k, v))) j).isSome = true := by
      intro j hj
      rw [hsel j]
      by_cases hji : j = i
      · rw [if_pos hji]
        rfl
      · rw [if_neg hji]
        exact hj
    have hlen' : (buf.set i (some (k, v))).length = buf.length := by simp
    have hnomem : histMem k hist = false := by
      cases hm : histMem k hist with
      | false => rfl
      | true =>
        obtain ⟨s, w, hsw⟩ := (hkeys k).2 hm
        exact absurd rfl (hnotstored s (k, w) hsw)
    refine ⟨?_, ?_, ?_, ?_, ?_⟩
    · intro j1 j2 kv1 kv2 h1 h2 hkk
      rw [hsel j1] at h1
      rw [hsel j2] at h2
      by_cases hj1 : j1 = i <;> by_cases hj2 : j2 = i
      · rw [hj1, hj2]
      · rw [if_pos hj1] at h1
        rw [if_neg hj2] at h2
        exfalso
        have hk1 : kv1.1 = k := by rw [← Option.some.inj h1]
        exact hnotstored j2 kv2 h2 (by rw [← hkk, hk1])
      · rw [if_neg hj1] at h1
        rw [if_pos hj2] at h2
        exfalso
        have hk2 : kv2.1 = k := by rw [← Option.some.inj h2]
        exact hnotstored j1 kv1 h1 (by rw [hkk, hk2])
      · rw [if_neg hj1] at h1
        rw [if_neg hj2] at h2
        exact hu j1 j2 kv1 kv2 h1 h2 hkk
    · intro j kv hkv
      rw [hsel j] at hkv
      by_cases hj : j = i
      · rw [if_pos hj] at hkv
        have hk1 : kv.1 = k := by rw [← Option.some.inj hkv]
        rw [hk1, hj]
        refine ⟨t, ?_, ?_, ?_⟩
        · rw [hlen']
          omega
        · rw [hlen']
          exact hti
        · intro u hu'
          rw [hlen']
          obtain ⟨kvu, hkvu, _⟩ := hcont u (by omega) hu'
          exact hmono _ (by rw [hkvu]; rfl)
      · rw [if_neg hj] at hkv
        exact pathAt_mono hlen' hmono (hpth j kv hkv)
    · intro j kv hkv
      rw [hsel j] at hkv
      by_cases hj : j = i
      · rw [if_pos hj] at hkv
        have hkveq : kv = (k, v) := (Option.some.inj hkv).symm
        rw [hkveq]
        show v = histSum k (hist ++ [(k, v)])
        rw [histSum_append_same k hist (k, v) rfl, histSum_eq_zero_of_not_mem hnomem]
        simp
      · rw [if_neg hj] at hkv
        have hne := hnotstored j kv hkv
        rw [histSum_append_other kv.1 hist (k, v) (Ne.symm hne)]
        exact hval j kv hkv
    · intro k'
      constructor
      · rintro ⟨j, w, hjw⟩
        rw [hsel j] at hjw
        by_cases hj : j = i
        · rw [if_pos hj] at hjw
          have hk' : k' = k := (congrArg Prod.fst (Option.some.inj hjw)).symm
          rw [hk']
          exact histMem_append_self k hist v
        · rw [if_neg hj] at hjw
          exact histMem_append_mono _ ((hkeys k').1 ⟨j, w, hjw⟩)
      · intro hmem
        rcases histMem_append_elim hmem with hmem' | hk'
        · obtain ⟨s, w, hsw⟩ := (hkeys k').2 hmem'
          have hs : s ≠ i := by
            intro hh
            rw [hh, hslot] at hsw
            exact Option.noConfusion hsw
          exact ⟨s, w, by rw [hsel s, if_neg hs]; exact hsw⟩
        · have hk : k' = k := hk'.symm ▸ rfl
          rw [hk]
          exact ⟨i, v, by rw [hsel i, if_pos rfl]⟩
    · rw [countSome_set_of_none buf i _ hilt hslot]
      calc countSome buf + 1 ≤ hist.length + 1 := by omega
        _ = (hist ++ [(k, v)]).length := by simp

theorem naInsertAll_TInv {off : ℕ → ℕ} :
    ∀ (pairs hist : List (ℕ × ℚ)) (buf : List (Option (ℕ × ℚ))),
      TInv off hist buf → hist.length + pairs.length ≤ buf.length →
      ∃ buf', naInsertAll off pairs buf = some buf' ∧
        TInv off (hist ++ pairs) buf' ∧ buf'.length = buf.length := by
  intro pairs
  induction pairs with
  | nil =>
    intro hist buf hinv hle
    exact ⟨buf, rfl, by simpa using hinv, rfl⟩
  | cons p t ih =>
    intro hist buf hinv hle
    have hcap : countSome buf < buf.length := by
      have := hinv.2.2.2.2
      simp only [List.length_cons] at hle
      omega
    obtain ⟨buf1, hins, hinv1, hlen1⟩ := naInsert_TInv hinv hcap
    have hle1 : (hist ++ [p]).length + t.length ≤ buf1.length := by
      simp only [List.length_append, List.length_cons, List.length_nil] at hle ⊢
      omega
    obtain ⟨buf', hall, hinv', hlen'⟩ := ih (hist ++ [p]) buf1 hinv1 hle1
    refine ⟨buf', ?_, ?_, by rw [hlen', hlen1]⟩
    · rw [naInsertAll, List.foldlM_cons]
      rw [show naInsert off buf p.1 p.2 = some buf1 from hins]
      exact hall
    · rw [List.append_assoc] at hinv'
      simpa using hinv'

theorem slotAt_replicate_none (n i : ℕ) :
    slotAt (List.replicate n (none : Option (ℕ × ℚ))) i = none := by
  rw [slotAt_eq, List.getD_eq_getElem?_getD, List.getElem?_replicate]
  by_cases hi : i < n <;> simp [hi]

theorem TInv_empty (off : ℕ → ℕ) (n : ℕ) :
    TInv off [] (List.replicate n none) := by
  refine ⟨?_, ?_, ?_, ?_, ?_⟩
  · intro i1 i2 kv1 kv2 h1 h2 _
    rw [slotAt_replicate_none] at h1
    exact Option.noConfusion h1
  · intro i kv h
    rw [slotAt_replicate_none] at h
    exact Option.noConfusion h
  · intro i kv h
    rw [slotAt_replicate_none] at h
    exact Option.noConfusion h
  · intro k
    constructor
    · rintro ⟨i, v, h⟩
      rw [slotAt_replicate_none] at h
      exact Option.noConfusion h
    · intro h
      simp [histMem] at h
  · rw [countSome_replicate_none]
    simp

/-- Inserting at most `n` pairs into the empty `n`-slot table succeeds, and
lookup returns exactly the per-key sum of the inserted pairs. -/
theorem naGet_insertAll {off : ℕ → ℕ} {pairs : List (ℕ × ℚ)} {n : ℕ}
    (hn : pairs.length ≤ n) :
    ∃ buf', naInsertAll off pairs (List.replicate n none) = some buf' ∧
      buf'.length = n ∧
      ∀ k, naGet off buf' k =
        if histMem k pairs = true then some (histSum k pairs) else none := by
  obtain ⟨buf', hall, hinv, hlen⟩ := naInsertAll_TInv pairs [] (List.replicate n none)
    (TInv_empty off n) (by simpa using hn)
  simp only [List.nil_append] at hinv
  obtain ⟨hu, hpth, hval, hkeys, _⟩ := hinv
  refine ⟨buf', hall, by simpa using hlen, ?_⟩
  intro k
  by_cases hm : histMem k pairs = true
  · rw [if_pos hm]
    obtain ⟨s, w, hsw⟩ := (hkeys k).2 hm
    have hw : w = histSum k pairs := hval s (k, w) hsw
    rw [← hw]
    exact naGet_stored hu hsw (hpth s (k, w) hsw)
  · rw [if_neg hm]
    apply naGet_absent
    intro s kv hkv hkk
    apply hm
    apply (hkeys k).1
    refine ⟨s, kv.2, ?_⟩
    have hpair : (k, kv.2) = kv := by rw [← hkk]
    rw [hpair]
    exact hkv

theorem slotAt_naScale (c : ℚ) (buf : List (Option (ℕ × ℚ))) (i : ℕ) :
    slotAt (naScale c buf) i =
      (slotAt buf i).map fun kv => (kv.1, kv.2 * c) := by
  rw [slotAt_eq, slotAt_eq, naScale, List.getD_eq_getElem?_getD,
    List.getD_eq_getElem?_getD, List.getElem?_map]
  cases buf[i]? <;> rfl

theorem length_naScale (c : ℚ) (buf : List (Option (ℕ × ℚ))) :
    (naScale c buf).length = buf.length := by
  rw [naScale, List.length_map]

theorem naFindAux_naScale (c : ℚ) (buf : List (Option (ℕ × ℚ)))
    (start k : ℕ) (fuel : ℕ) :
    ∀ j, naFindAux (naScale c buf) start k fuel j = naFindAux buf start k fuel j := by
  induction fuel with
  | zero => intro j; rfl
  | succ fuel ih =>
    intro j
    rw [naFindAux, naFindAux, length_naScale]
    cases hs : slotAt buf ((start + j) % buf.length) with
    | none =>
      have hs' : slotAt (naScale c buf) ((start + j) % buf.length) = none := by
        rw [slotAt_naScale, hs]
        rfl
      simp only [hs, hs']
    | some kv =>
      have hs' : slotAt (naScale c buf) ((start + j) % buf.length) =
          some (kv.1, kv.2 * c) := by
        rw [slotAt_naScale, hs]
        rfl
      simp only [hs, hs']
      by_cases hk : kv.1 = k
      · simp [hk]
      · simp [hk, ih]

theorem naGet_naScale (off : ℕ → ℕ) (c : ℚ) (buf : List (Option (ℕ × ℚ)))
    (k : ℕ) : naGet off (naScale c buf) k = (naGet off buf k).map (· * c) := by
  have hfind : naFind (naScale c buf) (off k) k = naFind buf (off k) k := by
    rw [naFind, naFind, length_naScale, naFindAux_naScale]
  cases hf : naFind buf (off k) k with
  | found i =>
    cases hs : slotAt buf i with
    | none =>
      rw [naGet, naGet, hf, hfind, hf]
      show (match slotAt (naScale c buf) i with
        | some kv => some kv.2
        | none => none) =
        Option.map (· * c) (match slotAt buf i with
        | some kv => some kv.2
        | none => none)
      rw [hs, slotAt_naScale, hs]
      rfl
    | some kv =>
      have h1 : naGet off buf k = some kv.2 := naGet_found_some hf hs
      have hf' : naFind (naScale c buf) (off k) k = .found i := by
        rw [hfind]
        exact hf
      have hs' : slotAt (naScale c buf) i = some (kv.1, kv.2 * c) := by
        rw [slotAt_naScale, hs]
        rfl
      have h2 := @naGet_found_some off (naScale c buf) k i (kv.1, kv.2 * c) hf' hs'
      rw [h1, h2]
      rfl
  | freeAt i =>
    rw [naGet_eq_free hf, naGet_eq_free (by rw [hfind]; exact hf)]
    rfl
  | exhausted =>
    rw [naGet_eq_exhausted hf, naGet_eq_exhausted (by rw [hfind]; exact hf)]
    rfl

/-! ### SummationEM capacity -/

theorem semInsert_succeeds {buf : List (Option (ℕ × ℚ))} {k : ℕ} {v : ℚ}
    (hcap : countSome buf < buf.length) :
    ∃ buf', semInsert buf k v = some buf' ∧
      countSome buf' ≤ countSome buf + 1 ∧ buf'.length = buf.length := by
  have hmemnone : (none : Option (ℕ × ℚ)) ∈ buf := by
    obtain ⟨i, hi, hnone⟩ := exists_none_of_countSome_lt buf hcap
    rw [List.getD_eq_getElem?_getD, List.getElem?_eq_getElem hi] at hnone
    simp only [Option.getD_some] at hnone
    exact hnone ▸ List.getElem_mem hi
  have hfi : semFindIdx k buf =
      some (buf.findIdx fun o => o.elim true fun y => y.1 == k) := by
    rw [semFindIdx]
    exact List.findIdx?_eq_some_of_exists ⟨none, hmemnone, rfl⟩
  obtain ⟨hlt, _, _⟩ := List.findIdx?_eq_some_iff_getElem.1
    (by rw [← semFindIdx]; exact hfi)
  set j0 := buf.findIdx fun o => o.elim true fun y => y.1 == k with hj0
  cases hgd : buf.getD j0 none with
  | none =>
    refine ⟨buf.set j0 (some (k, v)), ?_, ?_, by simp⟩
    · rw [semInsert]
      simp only [hfi, hgd]
    · rw [countSome_set_of_none buf j0 _ hlt hgd]
  | some y =>
    refine ⟨buf.set j0 (some (y.1, y.2 + v)), ?_, ?_, by simp⟩
    · rw [semInsert]
      simp only [hfi, hgd]
    · rw [countSome_set_of_some buf j0 _ y hgd]
      omega

theorem semInsertAll_isSome :
    ∀ (pairs : List (ℕ × ℚ)) (buf : List (Option (ℕ × ℚ))),
      countSome buf + pairs.length ≤ buf.length →
      (semInsertAll pairs buf).isSome := by
  intro pairs
  induction pairs with
  | nil => intro buf h; rfl
  | cons p t ih =>
    intro buf h
    have hcap : countSome buf < buf.length := by
      simp only [List.length_cons] at h
      omega
    obtain ⟨buf1, hins, hcnt1, hlen1⟩ := semInsert_succeeds (k := p.1) (v := p.2) hcap
    rw [semInsertAll, List.foldlM_cons,
      show semInsert buf p.1 p.2 = some buf1 from hins]
    apply ih
    simp only [List.length_cons] at h
    omega

theorem dempsterPairs_length (a e : List (ℕ × ℚ)) :
    (dempsterPairs a e).length = a.length * e.length := by
  induction a with
  | nil => simp [dempsterPairs]
  | cons x t ih =>
    simp only [dempsterPairs, List.flatMap_cons, List.length_append,
      List.length_map, List.length_cons] at ih ⊢
    rw [ih]
    ring

/-! ## Claims -/

/-- C9: the bitset Set implementations (for usize and for byte arrays) satisfy
the stated algebra: cap is commutative and associative, the empty set is a
subset of everything, complement is involutive, and cap with EMPTY is EMPTY. -/
theorem c9_set_algebra :
    (∀ x y : ℕ, uCap x y = uCap y x) ∧
    (∀ x y z : ℕ, uCap (uCap x y) z = uCap x (uCap y z)) ∧
    (∀ x : ℕ, uIsSubset uEmpty x = true) ∧
    (∀ x : ℕ, uNot (uNot x) = x) ∧
    (∀ x : ℕ, uCap x uEmpty = uEmpty) ∧
    (∀ (n : ℕ) (x y : Fin n → ℕ), bCap n x y = bCap n y x) ∧
    (∀ (n : ℕ) (x y z : Fin n → ℕ), bCap n (bCap n x y) z = bCap n x (bCap n y z)) ∧
    (∀ (n : ℕ) (x : Fin n → ℕ), bIsSubset n (bEmpty n) x) ∧
    (∀ (n : ℕ) (x : Fin n → ℕ), bNot n (bNot n x) = x) ∧
    (∀ (n : ℕ) (x : Fin n → ℕ), bCap n x (bEmpty n) = bEmpty n) := by
  refine ⟨fun x y => Nat.and_comm x y,
    fun x y z => Nat.and_assoc x y z,
    fun x => uIsSubset_empty x,
    fun x => Nat.xor_cancel_right _ _,
    fun x => Nat.and_zero x,
    fun n x y => funext fun i => Nat.and_comm _ _,
    fun n x y z => funext fun i => Nat.and_assoc _ _ _,
    fun n x i => Nat.zero_and _,
    fun n x => funext fun i => Nat.xor_cancel_right _ _,
    fun n x => funext fun i => Nat.and_zero _⟩

/-- C10: padding an assignment with any number of `(EMPTY, 0.0)` slots changes
neither `bel` nor `pl` at any query, because the empty hypothesis is a subset
of every query and contributes zero mass. -/
theorem c10_padding_neutral :
    ∀ (bba : List (ℕ × ℚ)) (q k : ℕ),
      bel (bba ++ List.replicate k (uEmpty, 0)) q = bel bba q ∧
      pl (bba ++ List.replicate k (uEmpty, 0)) q = pl bba q := by
  intro bba q k
  have h1 : ∀ r, bel (bba ++ List.replicate k (uEmpty, 0)) r = bel bba r := by
    intro r
    rw [bel_append, bel_replicate_empty, add_zero]
  exact ⟨h1 q, by rw [pl, pl, h1]⟩

/-- C6 counterexample: the claim fails as stated when a focal element carries
the empty hypothesis with positive mass: for `m = [(EMPTY, 1)]` (masses
non-negative, summing to 1) and `q = EMPTY`, `bel = 1 > 0 = pl`. -/
theorem c6_cntr_empty_focal :
    ¬ (bel [((0 : ℕ), (1 : ℚ))] 0 ≤ pl [((0 : ℕ), (1 : ℚ))] 0) := by
  norm_num [bel, pl, uIsSubset, uNot, usizeMask]

/-- C6 (amended): for every assignment whose masses are non-negative and sum
to at most 1, whose hypotheses are valid 64-bit sets, and whose empty focal
elements carry zero mass, `bel(m, q) ≤ pl(m, q)` for every query `q`. -/
theorem c6_amended_bel_le_pl (bba : List (ℕ × ℚ)) (q : ℕ)
    (hE : ∀ e ∈ bba, 0 ≤ e.2 ∧ e.1 < 2 ^ 64 ∧ (e.1 = 0 → e.2 = 0))
    (hS : massSum bba ≤ 1) : bel bba q ≤ pl bba q := by
  have h := bel_add_bel_uNot_le bba q hE
  rw [pl]
  linarith

/-- C6 witness: the amended theorem applied at a concrete assignment. -/
theorem c6_witness :
    bel [((4 : ℕ), (1 : ℚ))] 6 ≤ pl [((4 : ℕ), (1 : ℚ))] 6 :=
  c6_amended_bel_le_pl [((4 : ℕ), (1 : ℚ))] 6
    (by intro e he; simp at he; subst he; refine ⟨by norm_num, by norm_num, by norm_num⟩)
    (by norm_num [massSum])

/-- C1: PriorityHeap::insert_by_key does not compare the incoming mass with
the current minimum: on the full heap `{3, 2}` (capacity 2) it accepts the
incoming mass 1, unconditionally replaces the minimum leaf, and returns the
ejected element `(20, 2)` — the spec requires the insertion to be rejected
with `None` returned, keeping `{3, 2}`. -/
theorem c1_ph_insert_unconditional_replace :
    phInsertByKey (fun x : ℕ × ℚ => x.2) [some (10, 3), some (20, 2)] (30, 1) =
      ([some (10, 3), some (30, 1)], some (20, 2)) := rfl

/-- C2: combining the fully contradictory assignments `[(X, 1)]` and
`[(Z, 1)]` (disjoint hypotheses, so the conflict `K` accumulated in the
table's EMPTY entry is exactly 1, making the scale factor `1/(1-K)` a division
by zero), Dempster::comb does not return a FullContradiction error value: its
return type has no error channel, no check against `K ≈ 1` exists, and the
fold step ends in an unconditional `todo!()` panic (modelled `none`). -/
theorem c2_comb_no_contradiction_check :
    ((dempsterRawTable [(1, 1)] [(4, 1)]).map fun t =>
        naGet (fnvOffset 1) t uEmpty) = some (some 1) ∧
    dempsterComb 1 (kxApprox 1) [[(1, 1)], [(4, 1)]] = none := by
  constructor
  · norm_num [dempsterRawTable, dempsterPairs, naInsertAll, naInsert, naGet, naFind,
      naFindAux, slotAt, uCap, uEmpty, List.foldlM, Nat.mod_one, List.replicate]
  · rfl

/-- C5 counterexample: orchestration on zero input assignments does not return
an EmptyInput error value: `comb_approx` panics (`expect`, modelled `none`),
and its return type `[(S, T); N]` has no error channel at all. -/
theorem c5_cntr_empty_input_panics :
    combApprox 2 (kxApprox 2) [] = none := rfl

/-- C5 (amended): invoking `comb_approx` with an empty sequence of input
assignments panics via `expect` (modelled `none`) for every capacity and
approximation scheme, producing no partial or fabricated result; it does not
return a recoverable error value. -/
theorem c5_amended_empty_input_panics :
    ∀ (n : ℕ) (af : List (ℕ × ℚ) → List (ℕ × ℚ)), combApprox n af [] = none :=
  fun _ _ => rfl

/-- C4 counterexample: KX does not conserve the input mass: on the assignment
`[(1, 2)]` (total mass 2) the Top-1 approximation returns total mass 1, off
by 1 — far beyond the 1e-5 tolerance. -/
theorem c4_cntr_kx_not_conserving :
    ¬ (|massSum (kxApprox 1 [((1 : ℕ), (2 : ℚ))]) - massSum [((1 : ℕ), (2 : ℚ))]| ≤
      1 / 100000) := by
  rw [kx_single_two_eval]
  norm_num [massSum]

/-- C8 counterexample: KX is not idempotent on already-bounded inputs: the
single-element assignment `[(1, 2)]` (1 ≤ capacity 1) is rescaled to
`[(1, 1)]`, a different multiset of pairs. -/
theorem c8_cntr_kx_rescales :
    ¬ (kxApprox 1 [((1 : ℕ), (2 : ℚ))]).Perm [(1, 2)] := by
  rw [kx_single_two_eval]
  intro hp
  have h2 : ((1 : ℕ), (2 : ℚ)) ∈ [((1 : ℕ), (1 : ℚ))] := hp.mem_iff.2 (by simp)
  simp at h2

/-- C4 (amended): Summarize::approx preserves the input mass sum exactly for
every input (capacity at least 1); KX rescales, returning masses that sum to
exactly 1 whenever the input masses are non-negative and sum to 1 (capacity at
least 1) — it does not conserve general input sums. -/
theorem c4_amended_mass :
    (∀ (n : ℕ) (bba : List (ℕ × ℚ)), 1 ≤ n → (∀ p ∈ bba, 0 ≤ p.2) →
      massSum bba = 1 → massSum (kxApprox n bba) = 1) ∧
    (∀ (n : ℕ) (bba : List (ℕ × ℚ)), 1 ≤ n →
      massSum (summarizeApprox n bba) = massSum bba) :=
  ⟨fun n bba hn hnn hs => kx_mass_one n bba hn hnn hs,
   fun n bba hn => summarize_mass n bba hn⟩

/-- C4 witness: the amended theorem applied at concrete inputs. -/
theorem c4_witness :
    massSum (kxApprox 2 [((1 : ℕ), (1 : ℚ))]) = 1 ∧
    massSum (summarizeApprox 1 [((3 : ℕ), (2 : ℚ)), (5, 3)]) =
      massSum [((3 : ℕ), (2 : ℚ)), (5, 3)] :=
  ⟨c4_amended_mass.1 2 [((1 : ℕ), (1 : ℚ))] (by norm_num)
      (by intro p hp; simp at hp; subst hp; norm_num)
      (by norm_num [massSum]),
   c4_amended_mass.2 1 [((3 : ℕ), (2 : ℚ)), (5, 3)] (by norm_num)⟩

/-- C8 (amended): for every assignment with at most `n` focal elements whose
masses sum to 1, KX with capacity `n` returns exactly the input pairs, in
input order, padded to `n` slots with `(EMPTY, 0.0)`. -/
theorem c8_amended_kx_identity (n : ℕ) (bba : List (ℕ × ℚ))
    (hlen : bba.length ≤ n) (hsum : massSum bba = 1) :
    kxApprox n bba = bba ++ List.replicate (n - bba.length) (uEmpty, 0) :=
  kx_identity_of_bounded n bba hlen hsum

/-- C8 witness: the amended theorem applied at a concrete input. -/
theorem c8_witness :
    kxApprox 3 [((1 : ℕ), (1 : ℚ))] = [((1 : ℕ), (1 : ℚ))] ++
      List.replicate 2 (uEmpty, 0) :=
  c8_amended_kx_identity 3 [((1 : ℕ), (1 : ℚ))] (by norm_num)
    (by norm_num [massSum])

/-- C7: inserting the N×N pairwise-intersection products of two length-N
assignments into an N²-slot accumulator always finds a slot: neither the
NoAllocHashMap's capacity-exhaustion branch (`unreachable!`) nor the
SummationEM's `expect` can fire, whatever the hash offsets. -/
theorem c7_insert_never_exhausts (n : ℕ) (acc e : List (ℕ × ℚ)) (off : ℕ → ℕ)
    (ha : acc.length = n) (he : e.length = n) :
    (naInsertAll off (dempsterPairs acc e)
      (List.replicate (n * n) none)).isSome ∧
    (semInsertAll (dempsterPairs acc e)
      (List.replicate (n * n) none)).isSome := by
  have hplen : (dempsterPairs acc e).length = n * n := by
    rw [dempsterPairs_length, ha, he]
  constructor
  · obtain ⟨buf', hall, _, _⟩ := naInsertAll_TInv (dempsterPairs acc e) []
      (List.replicate (n * n) none) (TInv_empty off (n * n))
      (by simp [hplen])
    rw [hall]
    rfl
  · apply semInsertAll_isSome
    rw [countSome_replicate_none, List.length_replicate, hplen]
    omega

/-- C7 witness: the theorem applied at a concrete pair of assignments. -/
theorem c7_witness :
    (naInsertAll (fnvOffset 1) (dempsterPairs [((1 : ℕ), (1 : ℚ))] [(2, 1)])
      (List.replicate (1 * 1) none)).isSome ∧
    (semInsertAll (dempsterPairs [((1 : ℕ), (1 : ℚ))] [(2, 1)])
      (List.replicate (1 * 1) none)).isSome :=
  c7_insert_never_exhausts 1 [((1 : ℕ), (1 : ℚ))] [(2, 1)] (fnvOffset 1) rfl rfl

/-- C3 counterexample: during the Dempster step combining `[(X, 1/2)]` with
`[(Z, 1)]` (disjoint, so the only pairwise product has empty intersection and
mass 1/2), the empty-intersection mass is inserted into the accumulator table
rather than kept out of it: after the 1/(1-K) scaling the table's EMPTY entry
holds mass 1 ≠ 0. -/
theorem c3_cntr_empty_mass_in_table :
    (dempsterScaledTable [(1, 1 / 2)] [(2, 1)]).map
      (fun t => naGet (fnvOffset 1) t uEmpty) = some (some 1) := by
  norm_num [dempsterScaledTable, dempsterRawTable, dempsterPairs, naInsertAll,
    naInsert, naGet, naFind, naFindAux, naScale, slotAt, fnvOffset, fnv1a,
    usizeLEBytes, fnvStep, fnvBasis, fnvPrime, uCap, uEmpty, List.foldlM,
    Nat.mod_one, List.replicate, List.range_succ]

/-- C3 (amended): every pairwise product, including those with empty
intersection, is inserted into the accumulator table; the conflict `K` is the
table's EMPTY entry (the sum of the empty-intersection products), the
`1/(1-K)` scaling applies to the EMPTY entry as well, leaving it at
`K·(1/(1-K))` — nonzero when `0 < K < 1` — and the step returns no bounded
assignment at all, ending in `todo!()`. -/
theorem c3_amended_empty_inserted_and_scaled (n : ℕ) (acc e : List (ℕ × ℚ))
    (ha : acc.length = n) (he : e.length = n)
    (hmem : histMem uEmpty (dempsterPairs acc e) = true)
    (_hK : histSum uEmpty (dempsterPairs acc e) ≠ 1) :
    ∃ t, dempsterScaledTable acc e = some t ∧
      naGet (fnvOffset (n * n)) t uEmpty =
        some (histSum uEmpty (dempsterPairs acc e) *
          (1 / (1 - histSum uEmpty (dempsterPairs acc e)))) ∧
      dempsterFoldStep acc e = none := by
  obtain ⟨buf', hall, hlen, hget⟩ :=
    @naGet_insertAll (fnvOffset (acc.length * e.length)) (dempsterPairs acc e)
      (acc.length * e.length) (le_of_eq (dempsterPairs_length acc e))
  have hraw : dempsterRawTable acc e = some buf' := hall
  have hgetE : naGet (fnvOffset (acc.length * e.length)) buf' uEmpty =
      some (histSum uEmpty (dempsterPairs acc e)) := by
    rw [hget uEmpty, if_pos hmem]
  have hscaled : dempsterScaledTable acc e =
      some (naScale (1 / (1 - histSum uEmpty (dempsterPairs acc e))) buf') := by
    simp only [dempsterScaledTable, hraw, Option.map_some', hgetE,
      Option.getD_some]
  refine ⟨naScale (1 / (1 - histSum uEmpty (dempsterPairs acc e))) buf',
    hscaled, ?_, ?_⟩
  · rw [show n * n = acc.length * e.length from by rw [ha, he],
      naGet_naScale, hgetE]
    rfl
  · simp only [dempsterFoldStep, hscaled]
    rfl

/-- C3 witness: the amended theorem applied at a concrete combination step
with conflict K = 1/2. -/
theorem c3_witness :
    ∃ t, dempsterScaledTable [((1 : ℕ), (1 / 2 : ℚ))] [(2, 1)] = some t ∧
      naGet (fnvOffset (1 * 1)) t uEmpty =
        some (histSum uEmpty (dempsterPairs [((1 : ℕ), (1 / 2 : ℚ))] [(2, 1)]) *
          (1 / (1 - histSum uEmpty
            (dempsterPairs [((1 : ℕ), (1 / 2 : ℚ))] [(2, 1)])))) ∧
      dempsterFoldStep [((1 : ℕ), (1 / 2 : ℚ))] [(2, 1)] = none :=
  c3_amended_empty_inserted_and_scaled 1 [((1 : ℕ), (1 / 2 : ℚ))] [(2, 1)]
    rfl rfl (by decide)
    (by norm_num [histSum, dempsterPairs, uCap, uEmpty, List.filter])

end Fuze
